import Mathlib

/-!
Verification of the rich-document layout engine (crate `engine` of the
writing-agent repository) against its natural-language specification.

The Rust sources are shallowly embedded:
* Rust `String`/`&str` values become `List Char`; byte offsets are modelled
  exactly via `Char.utf8Size`, so `char_indices`, slicing and UTF-8
  boundaries have faithful counterparts.
* `f32` arithmetic is modelled over `ℚ` (exact arithmetic; the claims under
  study are about structure, ordering and accumulation, not about rounding).
* `u64` content signatures produced by `DefaultHasher` are idealised as
  injective: a signature is modelled as the exact tuple of data that
  `hash_block_into` / `hash_inlines` feed to the hasher, i.e. as a
  normalised copy of the hashed content (ids, dirty flags and the
  `strikethrough` style bit are erased, exactly the fields the Rust code
  does not hash).
* `HashMap`/`LruCache` become association lists; the LRU keeps its
  move-to-front/truncate behaviour.
* The text measurer (`SimpleMeasurer` / `FontdueMeasurer`) is deterministic
  and internally synchronised; layout functions are parameterised by the
  measuring function `meas : List Char → ℚ` (standing for
  `measurer.measure(·, metrics)`).  The Unicode line breaker delegates to
  the external `unicode_linebreak` crate, so layout functions are likewise
  parameterised by `breakFn : List Char → List Nat`.
-/

set_option maxHeartbeats 1000000

namespace WA

/-- Characters of a Rust string; byte offsets are recovered via `Char.utf8Size`. -/
abbrev LC := List Char

/-- Total UTF-8 byte length of a string, Rust `str::len`. -/
def byteLen (t : LC) : Nat := (t.map Char.utf8Size).sum

/-- Rust `str::char_indices` starting from byte offset `i`. -/
def charIndicesFrom : Nat → LC → List (Nat × Char)
  | _, [] => []
  | i, c :: cs => (i, c) :: charIndicesFrom (i + c.utf8Size) cs

/-- Rust `str::char_indices`: pairs of byte offset and character. -/
def charIndices (t : LC) : List (Nat × Char) := charIndicesFrom 0 t

/-- Byte offset of the `i`-th character (equals `byteLen` of the `i`-prefix). -/
def offsetOf (t : LC) (i : Nat) : Nat := byteLen (t.take i)

/-- The set of UTF-8 character boundaries of `t` (Rust `str::is_char_boundary`). -/
def isCharBoundary (t : LC) (n : Nat) : Prop := ∃ i, i ≤ t.length ∧ n = offsetOf t i

/-- Rust slice `text[..b]` (contents, as characters), for the ordered index list. -/
def byteTake (t : LC) (b : Nat) : LC :=
  (((charIndices t).takeWhile (fun p => p.1 < b)).map Prod.snd)

/-- Rust slice `text[a..]` (contents, as characters). -/
def byteDrop (t : LC) (a : Nat) : LC :=
  (((charIndices t).dropWhile (fun p => p.1 < a)).map Prod.snd)

/-- Rust slice `text[a..b]` (contents, as characters). -/
def byteSlice (t : LC) (a b : Nat) : LC :=
  ((((charIndices t).dropWhile (fun p => p.1 < a)).takeWhile (fun p => p.1 < b)).map Prod.snd)

/-- Unicode `White_Space` characters, Rust `char::is_whitespace`. -/
def rustWhitespace (c : Char) : Bool :=
  c ∈ [' ', '\t', '\n', '\x0b', '\x0c', '\r', '\u0085', '\u00A0', '\u1680',
       '\u2000', '\u2001', '\u2002', '\u2003', '\u2004', '\u2005', '\u2006',
       '\u2007', '\u2008', '\u2009', '\u200A', '\u2028', '\u2029', '\u202F',
       '\u205F', '\u3000']

/-- Rust `str::trim_end`: drop trailing whitespace characters. -/
def trimEnd (t : LC) : LC := (t.reverse.dropWhile rustWhitespace).reverse

/-- Rust `u8::is_ascii` / `str::is_ascii` on a character. -/
def isAsciiChar (c : Char) : Bool := c.toNat < 128

/-- `is_cjk` from `metrics.rs`: CJK/wide character classes. -/
def is_cjk (c : Char) : Bool :=
  (0x4E00 ≤ c.toNat ∧ c.toNat ≤ 0x9FFF) ∨
  (0x3400 ≤ c.toNat ∧ c.toNat ≤ 0x4DBF) ∨
  (0x20000 ≤ c.toNat ∧ c.toNat ≤ 0x2A6DF) ∨
  (0x2A700 ≤ c.toNat ∧ c.toNat ≤ 0x2B73F) ∨
  (0x2B740 ≤ c.toNat ∧ c.toNat ≤ 0x2B81F) ∨
  (0x2B820 ≤ c.toNat ∧ c.toNat ≤ 0x2CEAF) ∨
  (0xF900 ≤ c.toNat ∧ c.toNat ≤ 0xFAFF)

/-- `FontMetrics` from `metrics.rs`. -/
structure FontMetrics where
  font_size : ℚ
  line_height : ℚ
deriving DecidableEq

/-- `FontMetrics::default()`. -/
def FontMetrics.default : FontMetrics := ⟨14, 1.6⟩

/-- `measure_ascii_fast` from `metrics.rs`: counts ASCII bytes (the SSE2 fast
path computes the same count as the scalar fallback). -/
def measure_ascii_fast (bytes : LC) (font_size : ℚ) : ℚ :=
  (bytes.countP (fun c => isAsciiChar c) : ℚ) * font_size * 0.6

/-- `SimpleMeasurer::measure` from `metrics.rs`.  `text.len()` is the byte
length; for an all-ASCII string it equals the character count. -/
def SimpleMeasurer.measure (text : LC) (metrics : FontMetrics) : ℚ :=
  if text.all isAsciiChar ∧ byteLen text < 128 then
    (byteLen text : ℚ) * metrics.font_size * 0.6
  else if text.all isAsciiChar then
    measure_ascii_fast text metrics.font_size
  else
    text.foldl
      (fun width ch =>
        if is_cjk ch then width + metrics.font_size
        else if isAsciiChar ch then width + metrics.font_size * 0.6
        else width + metrics.font_size * 0.7)
      0

/-- `quantize_width` from `layout.rs`: `(width.max(0.0) * 10.0).round() as u32`.
Nonnegative values round half away from zero = half up. -/
def quantize_width (width : ℚ) : Nat := (round (max width 0 * 10)).toNat

/-- `quantize_size` from `layout.rs`: `size.round().max(1.0) as u16`.
Negative sizes are clamped to 1 by the `max`, matching Rust. -/
def quantize_size (size : ℚ) : Nat := max (round size) 1 |>.toNat

/-- `FontdueMeasurer::measure` from `metrics.rs`.  The glyph advance widths
come from `fontdue::Font::metrics`, a deterministic function of the character
and the quantized size; the two-tier glyph cache only memoises it and never
changes the returned value, so it is abstracted by `advance`. -/
def FontdueMeasurer.measure (advance : Char → Nat → ℚ) (text : LC)
    (metrics : FontMetrics) : ℚ :=
  if text.all isAsciiChar ∧ byteLen text < 128 then
    (byteLen text : ℚ) * metrics.font_size * 0.6
  else
    text.foldl
      (fun width ch => width + max (advance ch (quantize_size metrics.font_size)) 0)
      0

/-- `is_forbidden_line_start` from `layout.rs`: closing/terminal punctuation. -/
def is_forbidden_line_start (ch : Char) : Bool :=
  ch ∈ ['，', '。', '！', '？', '；', '：', '、', '）', '】', '》', '〉', '」',
        '』', '”', '’', ',', '.', '!', '?', ';', ':', ')', ']', '\x7d']

/-- `is_forbidden_line_end` from `layout.rs`: opening brackets/quotes. -/
def is_forbidden_line_end (ch : Char) : Bool :=
  ch ∈ ['（', '【', '《', '〈', '「', '『', '“', '‘', '〔', '［', '｛',
        '(', '[', '\x7b']

/-- `prev_char` from `layout.rs`: last character starting before byte `idx`. -/
def prev_char (t : LC) (idx : Nat) : Option (Nat × Char) :=
  if idx = 0 ∨ byteLen t < idx then none
  else ((charIndices t).takeWhile (fun p => p.1 < idx)).getLast?

/-- `next_char` from `layout.rs`: first character at byte offset `idx`. -/
def next_char (t : LC) (idx : Nat) : Option Char :=
  if byteLen t ≤ idx then none
  else (((charIndices t).dropWhile (fun p => p.1 < idx)).head?).map Prod.snd

/-- `next_char_index` from `layout.rs`: byte offset just after the character
at `idx`. -/
def next_char_index (t : LC) (idx : Nat) : Option Nat :=
  if byteLen t ≤ idx then none
  else (((charIndices t).dropWhile (fun p => p.1 < idx)).head?).map
    (fun p => idx + p.2.utf8Size)

/-- `adjust_break` from `layout.rs`: shift a candidate break backward past an
opening bracket/quote, then forward past closing/terminal punctuation. -/
def adjust_break (t : LC) (start : Nat) (break_pos : Nat) : Nat :=
  if break_pos ≤ start then break_pos
  else
    let bp1 :=
      match prev_char t break_pos with
      | some pc => if is_forbidden_line_end pc.2 ∧ start < pc.1 then pc.1 else break_pos
      | none => break_pos
    match next_char t bp1 with
    | some nc =>
        if is_forbidden_line_start nc then (next_char_index t bp1).getD bp1 else bp1
    | none => bp1

/-- `Style` from `wa_core::ast`. -/
structure Style where
  bold : Bool
  italic : Bool
  underline : Bool
  strikethrough : Bool
deriving DecidableEq

/-- `Inline` from `wa_core::ast`: text-level content. -/
inductive Inline where
  | text (value : LC)
  | styled (style : Style) (content : List Inline)
  | link (url : LC) (txt : List Inline)
  | codeSpan (value : LC)

mutual

/-- Boolean equality on `Inline` (for the manual `DecidableEq` instance). -/
def beqInline : Inline → Inline → Bool
  | .text a, .text b => a = b
  | .styled s c, .styled s2 c2 => s = s2 && beqInlines c c2
  | .link u t, .link u2 t2 => u = u2 && beqInlines t t2
  | .codeSpan a, .codeSpan b => a = b
  | _, _ => false

/-- Boolean equality on `List Inline`. -/
def beqInlines : List Inline → List Inline → Bool
  | [], [] => true
  | a :: as, b :: bs => beqInline a b && beqInlines as bs
  | _, _ => false

end

mutual

theorem beqInline_iff : ∀ a b, beqInline a b = true ↔ a = b
  | .text a, .text b => by simp [beqInline]
  | .styled s c, .styled s2 c2 => by simp [beqInline, beqInlines_iff c c2]
  | .link u t, .link u2 t2 => by simp [beqInline, beqInlines_iff t t2]
  | .codeSpan a, .codeSpan b => by simp [beqInline]
  | .text _, .styled _ _ => by simp [beqInline]
  | .text _, .link _ _ => by simp [beqInline]
  | .text _, .codeSpan _ => by simp [beqInline]
  | .styled _ _, .text _ => by simp [beqInline]
  | .styled _ _, .link _ _ => by simp [beqInline]
  | .styled _ _, .codeSpan _ => by simp [beqInline]
  | .link _ _, .text _ => by simp [beqInline]
  | .link _ _, .styled _ _ => by simp [beqInline]
  | .link _ _, .codeSpan _ => by simp [beqInline]
  | .codeSpan _, .text _ => by simp [beqInline]
  | .codeSpan _, .styled _ _ => by simp [beqInline]
  | .codeSpan _, .link _ _ => by simp [beqInline]

theorem beqInlines_iff : ∀ as bs, beqInlines as bs = true ↔ as = bs
  | [], [] => by simp [beqInlines]
  | a :: as, b :: bs => by
      simp [beqInlines, beqInline_iff a b, beqInlines_iff as bs]
  | [], _ :: _ => by simp [beqInlines]
  | _ :: _, [] => by simp [beqInlines]

end

instance : DecidableEq Inline := fun a b => decidable_of_iff _ (beqInline_iff a b)

/-- `ListItem` from `wa_core::ast`. -/
structure ListItem where
  id : Nat
  content : List Inline
deriving DecidableEq

/-- `Cell` from `wa_core::ast`. -/
structure Cell where
  content : List Inline
deriving DecidableEq

/-- `FigureSize` from `wa_core::ast`. -/
structure FigureSize where
  width : ℚ
  height : ℚ
deriving DecidableEq

/-- `Block` from `wa_core::ast`: top-level content unit.  `Uuid` block ids are
modelled as `Nat`. -/
inductive Block where
  | heading (id : Nat) (level : Nat) (content : List Inline) (dirty : Bool)
  | paragraph (id : Nat) (content : List Inline) (dirty : Bool)
  | list (id : Nat) (ordered : Bool) (items : List ListItem) (dirty : Bool)
  | quote (id : Nat) (content : List Block) (dirty : Bool)
  | code (id : Nat) (lang : LC) (codeText : LC) (dirty : Bool)
  | table (id : Nat) (rows : List (List Cell)) (dirty : Bool)
  | figure (id : Nat) (url : LC) (caption : Option LC) (size : Option FigureSize)
      (dirty : Bool)

mutual

/-- Boolean equality on `Block` (for the manual `DecidableEq` instance). -/
def beqBlock : Block → Block → Bool
  | .heading i l c d, .heading i2 l2 c2 d2 => i = i2 && l = l2 && c = c2 && d = d2
  | .paragraph i c d, .paragraph i2 c2 d2 => i = i2 && c = c2 && d = d2
  | .list i o it d, .list i2 o2 it2 d2 => i = i2 && o = o2 && it = it2 && d = d2
  | .quote i c d, .quote i2 c2 d2 => i = i2 && beqBlocks c c2 && d = d2
  | .code i l t d, .code i2 l2 t2 d2 => i = i2 && l = l2 && t = t2 && d = d2
  | .table i r d, .table i2 r2 d2 => i = i2 && r = r2 && d = d2
  | .figure i u cap s d, .figure i2 u2 cap2 s2 d2 =>
      i = i2 && u = u2 && cap = cap2 && s = s2 && d = d2
  | _, _ => false

/-- Boolean equality on `List Block`. -/
def beqBlocks : List Block → List Block → Bool
  | [], [] => true
  | a :: as, b :: bs => beqBlock a b && beqBlocks as bs
  | _, _ => false

end

mutual

theorem beqBlock_iff : ∀ a b, beqBlock a b = true ↔ a = b
  | .heading _ _ _ _, .heading _ _ _ _ => by simp [beqBlock, and_assoc]
  | .paragraph _ _ _, .paragraph _ _ _ => by simp [beqBlock, and_assoc]
  | .list _ _ _ _, .list _ _ _ _ => by simp [beqBlock, and_assoc]
  | .quote i c d, .quote i2 c2 d2 => by simp [beqBlock, beqBlocks_iff c c2, and_assoc]
  | .code _ _ _ _, .code _ _ _ _ => by simp [beqBlock, and_assoc]
  | .table _ _ _, .table _ _ _ => by simp [beqBlock, and_assoc]
  | .figure _ _ _ _ _, .figure _ _ _ _ _ => by simp [beqBlock, and_assoc]
  | .heading _ _ _ _, .paragraph _ _ _ => by simp [beqBlock]
  | .heading _ _ _ _, .list _ _ _ _ => by simp [beqBlock]
  | .heading _ _ _ _, .quote _ _ _ => by simp [beqBlock]
  | .heading _ _ _ _, .code _ _ _ _ => by simp [beqBlock]
  | .heading _ _ _ _, .table _ _ _ => by simp [beqBlock]
  | .heading _ _ _ _, .figure _ _ _ _ _ => by simp [beqBlock]
  | .paragraph _ _ _, .heading _ _ _ _ => by simp [beqBlock]
  | .paragraph _ _ _, .list _ _ _ _ => by simp [beqBlock]
  | .paragraph _ _ _, .quote _ _ _ => by simp [beqBlock]
  | .paragraph _ _ _, .code _ _ _ _ => by simp [beqBlock]
  | .paragraph _ _ _, .table _ _ _ => by simp [beqBlock]
  | .paragraph _ _ _, .figure _ _ _ _ _ => by simp [beqBlock]
  | .list _ _ _ _, .heading _ _ _ _ => by simp [beqBlock]
  | .list _ _ _ _, .paragraph _ _ _ => by simp [beqBlock]
  | .list _ _ _ _, .quote _ _ _ => by simp [beqBlock]
  | .list _ _ _ _, .code _ _ _ _ => by simp [beqBlock]
  | .list _ _ _ _, .table _ _ _ => by simp [beqBlock]
  | .list _ _ _ _, .figure _ _ _ _ _ => by simp [beqBlock]
  | .quote _ _ _, .heading _ _ _ _ => by simp [beqBlock]
  | .quote _ _ _, .paragraph _ _ _ => by simp [beqBlock]
  | .quote _ _ _, .list _ _ _ _ => by simp [beqBlock]
  | .quote _ _ _, .code _ _ _ _ => by simp [beqBlock]
  | .quote _ _ _, .table _ _ _ => by simp [beqBlock]
  | .quote _ _ _, .figure _ _ _ _ _ => by simp [beqBlock]
  | .code _ _ _ _, .heading _ _ _ _ => by simp [beqBlock]
  | .code _ _ _ _, .paragraph _ _ _ => by simp [beqBlock]
  | .code _ _ _ _, .list _ _ _ _ => by simp [beqBlock]
  | .code _ _ _ _, .quote _ _ _ => by simp [beqBlock]
  | .code _ _ _ _, .table _ _ _ => by simp [beqBlock]
  | .code _ _ _ _, .figure _ _ _ _ _ => by simp [beqBlock]
  | .table _ _ _, .heading _ _ _ _ => by simp [beqBlock]
  | .table _ _ _, .paragraph _ _ _ => by simp [beqBlock]
  | .table _ _ _, .list _ _ _ _ => by simp [beqBlock]
  | .table _ _ _, .quote _ _ _ => by simp [beqBlock]
  | .table _ _ _, .code _ _ _ _ => by simp [beqBlock]
  | .table _ _ _, .figure _ _ _ _ _ => by simp [beqBlock]
  | .figure _ _ _ _ _, .heading _ _ _ _ => by simp [beqBlock]
  | .figure _ _ _ _ _, .paragraph _ _ _ => by simp [beqBlock]
  | .figure _ _ _ _ _, .list _ _ _ _ => by simp [beqBlock]
  | .figure _ _ _ _ _, .quote _ _ _ => by simp [beqBlock]
  | .figure _ _ _ _ _, .code _ _ _ _ => by simp [beqBlock]
  | .figure _ _ _ _ _, .table _ _ _ => by simp [beqBlock]

theorem beqBlocks_iff : ∀ as bs, beqBlocks as bs = true ↔ as = bs
  | [], [] => by simp [beqBlocks]
  | a :: as, b :: bs => by
      simp [beqBlocks, beqBlock_iff a b, beqBlocks_iff as bs]
  | [], _ :: _ => by simp [beqBlocks]
  | _ :: _, [] => by simp [beqBlocks]

end

instance : DecidableEq Block := fun a b => decidable_of_iff _ (beqBlock_iff a b)

/-- `Document` from `wa_core::ast` (metadata omitted: the engine never reads it). -/
structure Document where
  id : Nat
  version : Nat
  blocks : List Block

/-- `Block::id`. -/
def Block.idOf : Block → Nat
  | .heading i _ _ _ => i
  | .paragraph i _ _ => i
  | .list i _ _ _ => i
  | .quote i _ _ => i
  | .code i _ _ _ => i
  | .table i _ _ => i
  | .figure i _ _ _ _ => i

/-- `Block::is_dirty`. -/
def Block.is_dirty : Block → Bool
  | .heading _ _ _ d => d
  | .paragraph _ _ d => d
  | .list _ _ _ d => d
  | .quote _ _ d => d
  | .code _ _ _ d => d
  | .table _ _ d => d
  | .figure _ _ _ _ d => d

mutual

/-- `is_effectively_dirty` from `layout.rs`: the block's own flag, or for a
quote any (recursively) effectively dirty nested block. -/
def is_effectively_dirty : Block → Bool
  | .quote i c d => (Block.quote i c d).is_dirty || anyEffectivelyDirty c
  | b => b.is_dirty

/-- Helper for `is_effectively_dirty` over nested quote content
(`content.iter().any(is_effectively_dirty)`). -/
def anyEffectivelyDirty : List Block → Bool
  | [] => false
  | b :: bs => is_effectively_dirty b || anyEffectivelyDirty bs

end

/-- `join_inline_into` / `join_inline` from `layout.rs`: flatten inline spans
to plain text (styles and link urls are dropped). -/
def joinInlines : List Inline → LC
  | [] => []
  | .text v :: rest => v ++ joinInlines rest
  | .codeSpan v :: rest => v ++ joinInlines rest
  | .styled _ c :: rest => joinInlines c ++ joinInlines rest
  | .link _ t :: rest => joinInlines t ++ joinInlines rest

/-- `hash_inlines` from `layout.rs`, idealised: the `u64` produced by the
`DefaultHasher` is replaced by the exact content it hashes — discriminants,
text values, `bold`/`italic`/`underline` bits and nested structure.  The
`strikethrough` bit is NOT hashed by the Rust code, so it is normalised to
`false`; list lengths are hashed, which structural list equality captures. -/
def sigInlines : List Inline → List Inline
  | [] => []
  | .text v :: rest => .text v :: sigInlines rest
  | .codeSpan v :: rest => .codeSpan v :: sigInlines rest
  | .styled s c :: rest =>
      .styled ⟨s.bold, s.italic, s.underline, false⟩ (sigInlines c) :: sigInlines rest
  | .link u t :: rest => .link u (sigInlines t) :: sigInlines rest

/-- `hash_row_value` from `layout.rs`, idealised: row length plus each cell's
inline signature. -/
def sigRow (row : List Cell) : List (List Inline) :=
  row.map (fun cell => sigInlines cell.content)

mutual

/-- `hash_block_into` / `hash_block` from `layout.rs`, idealised as a
normalisation: ids, dirty flags, list-item ids and strikethrough bits are
erased (the Rust code does not hash them); everything it hashes is kept. -/
def hash_block : Block → Block
  | .heading _ l c _ => .heading 0 l (sigInlines c) false
  | .paragraph _ c _ => .paragraph 0 (sigInlines c) false
  | .list _ o items _ => .list 0 o (items.map fun it => ⟨0, sigInlines it.content⟩) false
  | .quote _ c _ => .quote 0 (hashBlocks c) false
  | .code _ lang c _ => .code 0 lang c false
  | .table _ rows _ => .table 0 (rows.map fun r => (sigRow r).map Cell.mk) false
  | .figure _ u cap sz _ => .figure 0 u cap sz false

/-- Nested-quote helper for `hash_block`. -/
def hashBlocks : List Block → List Block
  | [] => []
  | b :: bs => hash_block b :: hashBlocks bs

end

/-- `Line` from `layout.rs`: a wrapped text run plus measured width. -/
structure Line where
  text : LC
  width : ℚ
deriving DecidableEq

/-- `LayoutKind` from `layout.rs`. -/
inductive LayoutKind where
  | heading (level : Nat)
  | paragraph
  | list
  | quote
  | code
  | table
  | figure
deriving DecidableEq

/-- `BlockMeta` from `layout.rs`. -/
structure BlockMeta where
  width : ℚ
  height : ℚ
deriving DecidableEq

/-- `LayoutBlock` from `layout.rs`.  `Arc` sharing is erased: blocks are
compared structurally. -/
structure LayoutBlock where
  block_id : Nat
  kind : LayoutKind
  lines : List Line
  height : ℚ
  meta : Option BlockMeta
deriving DecidableEq

/-- `Page` from `layout.rs`. -/
structure Page where
  number : Nat
  blocks : List LayoutBlock
  height : ℚ
deriving DecidableEq

/-- `LayoutTree` from `layout.rs`. -/
structure LayoutTree where
  pages : List Page
deriving DecidableEq

/-- `LayoutConfig` from `layout.rs`. -/
structure LayoutConfig where
  page_width : ℚ
  page_height : ℚ
  margin : ℚ
  metrics : FontMetrics
  paged : Bool

/-- `LayoutConfig::default()`. -/
def LayoutConfig.default : LayoutConfig := ⟨794, 1123, 64, FontMetrics.default, true⟩

/-- Association-list lookup, modelling `HashMap::get`. -/
def alistGet {α β : Type} [DecidableEq α] (k : α) : List (α × β) → Option β
  | [] => none
  | (k2, v) :: rest => if k2 = k then some v else alistGet k rest

/-- Association-list overwrite, modelling `HashMap::insert`. -/
def alistPut {α β : Type} [DecidableEq α] (k : α) (v : β) (l : List (α × β)) :
    List (α × β) :=
  (k, v) :: l.filter (fun p => ¬p.1 = k)

/-- `LruCache::get` (recency list, most recent first): a hit is promoted to
the front. -/
def lruGet {α β : Type} [DecidableEq α] (k : α) (l : List (α × β)) :
    Option β × List (α × β) :=
  match alistGet k l with
  | some v => (some v, (k, v) :: l.filter (fun p => ¬p.1 = k))
  | none => (none, l)

/-- `LruCache::put` with capacity `cap`: insert at the front, drop the least
recently used entry beyond the capacity. -/
def lruPut {α β : Type} [DecidableEq α] (cap : Nat) (k : α) (v : β)
    (l : List (α × β)) : List (α × β) :=
  ((k, v) :: l.filter (fun p => ¬p.1 = k)).take cap

/-- `BreakKey` from `layout.rs`.  The `u64` text hash is idealised as the text
itself (`DefaultHasher` treated as injective). -/
structure BreakKey where
  text : LC
  width_q : Nat
  size_q : Nat
deriving DecidableEq

/-- `ImageAsset` from `image.rs`. -/
structure ImageAsset where
  key : LC
  width : ℚ
  height : ℚ
  display_width : ℚ
  display_height : ℚ
deriving DecidableEq

/-- The asset `ImageCache::load` fabricates on a miss (320×180). -/
def defaultImageAsset (key : LC) : ImageAsset := ⟨key, 320, 180, 320, 180⟩

/-- The mutable state of `LayoutEngine` that the modelled code observes: the
two break-position caches and the image cache.  The glyph cache and prewarm
version only memoise the deterministic measurer, the scratch buffers are
cleared before every use, and the hit/miss counters feed diagnostics only, so
none of them are part of the model. -/
structure EngineState where
  break_cache_short : List (BreakKey × List Nat)
  break_cache_long : List (BreakKey × List Nat)
  images : List (LC × ImageAsset)

/-- A freshly constructed engine (`LayoutEngine::new`): all caches empty. -/
def EngineState.fresh : EngineState := ⟨[], [], []⟩

/-- `LayoutEngine::fill_break_buf` from `layout.rs`: memoised Unicode break
positions.  `breakFn` abstracts `LineBreaker::break_positions_into` (the
external `unicode_linebreak` crate); short texts (≤128 bytes) use the bounded
hashmap cleared wholesale past 4096 entries, long texts the true LRU of
capacity 512 (the non-`WA_LOW_SPEC` sizes). -/
def fill_break_buf (breakFn : LC → List Nat) (text : LC) (width : ℚ)
    (font_size : ℚ) (st : EngineState) : List Nat × EngineState :=
  let key : BreakKey := ⟨text, quantize_width width, quantize_size font_size⟩
  if byteLen text ≤ 128 then
    match alistGet key st.break_cache_short with
    | some cached => (cached, st)
    | none =>
        let fresh := breakFn text
        let short0 := if 4096 < st.break_cache_short.length then [] else st.break_cache_short
        (fresh, { st with break_cache_short := alistPut key fresh short0 })
  else
    match lruGet key st.break_cache_long with
    | (some cached, long2) => (cached, { st with break_cache_long := long2 })
    | (none, _) =>
        let fresh := breakFn text
        (fresh, { st with break_cache_long := lruPut 512 key fresh st.break_cache_long })

/-- `ImageCache::load` from `image.rs`: return the cached asset or insert the
default one. -/
def images_load (key : LC) (st : EngineState) : ImageAsset × EngineState :=
  match alistGet key st.images with
  | some a => (a, st)
  | none =>
      (defaultImageAsset key,
       { st with images := alistPut key (defaultImageAsset key) st.images })

/-- `LayoutCache` from `cache.rs`.  Signatures are idealised content copies
(see `hash_block`/`sigInlines`); the `line_pool` is omitted because recycled
buffers are cleared before reuse (`alloc_lines`), so pooling never changes any
produced `Line`. -/
structure LayoutCache where
  blocks : List (Nat × LayoutBlock)
  sigs : List (Nat × Block)
  list_item_cache : List ((Nat × Nat) × (List Inline × List Line))
  quote_item_cache : List ((Nat × Nat) × (List Inline × List Line))
  table_row_cache : List ((Nat × Nat) × (List (List Inline) × List Line))

/-- `LayoutCache::new`. -/
def LayoutCache.new : LayoutCache := ⟨[], [], [], [], []⟩

/-- `LayoutCache::get`. -/
def LayoutCache.get (c : LayoutCache) (id : Nat) : Option LayoutBlock :=
  alistGet id c.blocks

/-- `LayoutCache::insert` (the recycle step only feeds the omitted pool). -/
def LayoutCache.insert (c : LayoutCache) (id : Nat) (b : LayoutBlock) : LayoutCache :=
  { c with blocks := alistPut id b c.blocks }

/-- `LayoutCache::insert_with_sig`. -/
def LayoutCache.insert_with_sig (c : LayoutCache) (id : Nat) (b : LayoutBlock)
    (sig : Block) : LayoutCache :=
  { c.insert id b with sigs := alistPut id sig c.sigs }

/-- `LayoutCache::signature`. -/
def LayoutCache.signature (c : LayoutCache) (id : Nat) : Option Block :=
  alistGet id c.sigs

/-- `LayoutCache::clear`. -/
def LayoutCache.clear (_ : LayoutCache) : LayoutCache := LayoutCache.new

/-- `LayoutCache::get_list_item`: a hit only on signature match. -/
def LayoutCache.get_list_item (c : LayoutCache) (id idx : Nat)
    (sig : List Inline) : Option (List Line) :=
  match alistGet (id, idx) c.list_item_cache with
  | some sl => if sl.1 = sig then some sl.2 else none
  | none => none

/-- `LayoutCache::put_list_item`. -/
def LayoutCache.put_list_item (c : LayoutCache) (id idx : Nat)
    (sig : List Inline) (lines : List Line) : LayoutCache :=
  { c with list_item_cache := alistPut (id, idx) (sig, lines) c.list_item_cache }

/-- `LayoutCache::get_quote_item`. -/
def LayoutCache.get_quote_item (c : LayoutCache) (id idx : Nat)
    (sig : List Inline) : Option (List Line) :=
  match alistGet (id, idx) c.quote_item_cache with
  | some sl => if sl.1 = sig then some sl.2 else none
  | none => none

/-- `LayoutCache::put_quote_item`. -/
def LayoutCache.put_quote_item (c : LayoutCache) (id idx : Nat)
    (sig : List Inline) (lines : List Line) : LayoutCache :=
  { c with quote_item_cache := alistPut (id, idx) (sig, lines) c.quote_item_cache }

/-- `LayoutCache::get_table_row`. -/
def LayoutCache.get_table_row (c : LayoutCache) (id idx : Nat)
    (sig : List (List Inline)) : Option (List Line) :=
  match alistGet (id, idx) c.table_row_cache with
  | some sl => if sl.1 = sig then some sl.2 else none
  | none => none

/-- `LayoutCache::put_table_row`. -/
def LayoutCache.put_table_row (c : LayoutCache) (id idx : Nat)
    (sig : List (List Inline)) (lines : List Line) : LayoutCache :=
  { c with table_row_cache := alistPut (id, idx) (sig, lines) c.table_row_cache }

/-- The body of `LayoutEngine::wrap_text_with_pool` (layout.rs:484-565) after
the break buffer is filled: walk `char_indices` accumulating pixel width,
break when the next character would overflow and at least one character is
placed.  State mirrors the Rust locals: the remaining `char_indices`
iterator, the not-yet-passed suffix of `break_positions` (the `break_idx`
cursor), `start`, `last_break`, `last_break_width`, `current_width`, `out`.
`meas` is `self.measurer.0.measure(·, metrics)`. -/
def wrapGo (meas : LC → ℚ) (text : LC) (width : ℚ) :
    List (Nat × Char) → List Nat → Nat → Option Nat → ℚ → ℚ → List Line → List Line
  | [], _, start, _, _, currentWidth, out =>
      let raw := byteDrop text start
      let slice := trimEnd raw
      let out :=
        if slice ≠ [] then
          out ++ [⟨slice, if slice.length = raw.length then currentWidth else meas slice⟩]
        else out
      if out = [] then [⟨[], 0⟩] else out
  | (pos, ch) :: rest, bks0, start, lastBreak0, lastBreakWidth0, currentWidth0, out =>
      let bks := bks0.dropWhile (fun b => b < pos)
      let lastBreak := if bks.head? = some pos then some pos else lastBreak0
      let lastBreakWidth := if bks.head? = some pos then currentWidth0 else lastBreakWidth0
      let w := meas [ch]
      let currentWidth := currentWidth0 + w
      let totalWidth := currentWidth
      let nextPos := ((rest.head?).map Prod.fst).getD (byteLen text)
      if width < currentWidth ∧ start < pos then
        let bp0 := lastBreak.getD pos
        let bp1 := if bp0 ≤ start then pos else bp0
        let adjustedPos := adjust_break text start bp1
        let adjusted : Prop := adjustedPos ≠ bp1
        let breakPos := adjustedPos
        let slice := trimEnd (byteSlice text start breakPos)
        let out :=
          if slice ≠ [] then
            out ++ [⟨slice,
              if ¬adjusted ∧ some breakPos = lastBreak then lastBreakWidth
              else if ¬adjusted ∧ breakPos = pos then max (currentWidth - w) 0
              else meas slice⟩]
          else out
        let baseWidth :=
          if ¬adjusted ∧ some breakPos = lastBreak then lastBreakWidth
          else if ¬adjusted ∧ breakPos = pos then max (currentWidth - w) 0
          else meas (byteSlice text start breakPos)
        let newWidth :=
          if breakPos < nextPos then
            if ¬adjusted ∧ some breakPos = lastBreak then max (totalWidth - baseWidth) 0
            else if ¬adjusted ∧ breakPos = pos then w
            else meas (byteSlice text breakPos nextPos)
          else 0
        wrapGo meas text width rest bks breakPos none 0 newWidth out
      else
        wrapGo meas text width rest bks start lastBreak lastBreakWidth currentWidth out

/-- `wrap_text` — the pure part of `LayoutEngine::wrap_text_with_pool`, with
the break positions (`self.break_buf`) passed explicitly. -/
def wrap_text (meas : LC → ℚ) (bks : List Nat) (text : LC) (width : ℚ) : List Line :=
  if text = [] then [⟨[], 0⟩]
  else wrapGo meas text width (charIndices text) bks 0 none 0 0 []

/-- `LayoutEngine::wrap_text_with_pool` from `layout.rs`: fill the break
buffer through the break caches, then run the wrap loop.  The `cache`
argument is used by the Rust code only for `alloc_lines` buffer pooling
(contents always cleared), so it passes through unchanged. -/
def wrap_text_with_pool (meas : LC → FontMetrics → ℚ) (breakFn : LC → List Nat)
    (text : LC) (width : ℚ) (metrics : FontMetrics)
    (cache : Option LayoutCache) (st : EngineState) :
    List Line × Option LayoutCache × EngineState :=
  if text = [] then ([⟨[], 0⟩], cache, st)
  else
    let bst := fill_break_buf breakFn text width metrics.font_size st
    (wrapGo (fun s => meas s metrics) text width (charIndices text) bst.1 0 none 0 0 [],
     cache, bst.2)

/-- The `format!("{} ", idx + 1)` list-item label from the List branch of
`layout_block_inner`. -/
def itemLabel (idx : Nat) : LC := (Nat.repr (idx + 1)).toList ++ [' ']

/-- Rust `str::lines`: split on newline, strip a carriage return preceding
each newline, no trailing empty line. -/
def rustLines (t : LC) : List LC :=
  let parts := t.splitOn '\n'
  let init := parts.dropLast.map (fun l => if l.getLast? = some '\r' then l.dropLast else l)
  match parts.getLast? with
  | some last => if last = [] then init else init ++ [last]
  | none => init

/-- The `" | "`-joined row text of the Table branch of `layout_block_inner`. -/
def rowText : List Cell → LC
  | [] => []
  | [c] => joinInlines c.content
  | c :: rest => joinInlines c.content ++ [' ', '|', ' '] ++ rowText rest

/-- The List branch loop of `layout_block_inner` (layout.rs:333-355):
per-item sub-cache lookup keyed by the item-content signature, else wrap
`"{idx+1} "` followed by the flattened item text and store it. -/
def listItemsLoop (meas : LC → FontMetrics → ℚ) (breakFn : LC → List Nat)
    (config : LayoutConfig) (width : ℚ) (blockId : Nat) :
    List ListItem → Nat → List Line → Option LayoutCache → EngineState →
    List Line × Option LayoutCache × EngineState
  | [], _, lines, cache, st => (lines, cache, st)
  | item :: rest, idx, lines, cache, st =>
      let hit? := match cache with
        | some c => c.get_list_item blockId idx (sigInlines item.content)
        | none => none
      match hit? with
      | some hit =>
          listItemsLoop meas breakFn config width blockId rest (idx + 1)
            (lines ++ hit) cache st
      | none =>
          let text := itemLabel idx ++ joinInlines item.content
          let r := wrap_text_with_pool meas breakFn text width config.metrics cache st
          let cache2 := match r.2.1 with
            | some c => some (c.put_list_item blockId idx (sigInlines item.content) r.1)
            | none => none
          listItemsLoop meas breakFn config width blockId rest (idx + 1)
            (lines ++ r.1) cache2 r.2.2

/-- The Quote branch loop of `layout_block_inner` (layout.rs:367-387): only
nested paragraphs are laid out, sub-cached per nested index. -/
def quoteItemsLoop (meas : LC → FontMetrics → ℚ) (breakFn : LC → List Nat)
    (config : LayoutConfig) (width : ℚ) (blockId : Nat) :
    List Block → Nat → List Line → Option LayoutCache → EngineState →
    List Line × Option LayoutCache × EngineState
  | [], _, lines, cache, st => (lines, cache, st)
  | .paragraph _ content _ :: rest, idx, lines, cache, st =>
      let hit? := match cache with
        | some c => c.get_quote_item blockId idx (sigInlines content)
        | none => none
      (match hit? with
      | some hit =>
          quoteItemsLoop meas breakFn config width blockId rest (idx + 1)
            (lines ++ hit) cache st
      | none =>
          let text := joinInlines content
          let r := wrap_text_with_pool meas breakFn text width config.metrics cache st
          let cache2 := match r.2.1 with
            | some c => some (c.put_quote_item blockId idx (sigInlines content) r.1)
            | none => none
          quoteItemsLoop meas breakFn config width blockId rest (idx + 1)
            (lines ++ r.1) cache2 r.2.2)
  | _ :: rest, idx, lines, cache, st =>
      quoteItemsLoop meas breakFn config width blockId rest (idx + 1) lines cache st

/-- The Table branch loop of `layout_block_inner` (layout.rs:417-448): one
`Line` per row at full width, sub-cached per row index. -/
def tableRowsLoop (width : ℚ) (blockId : Nat) :
    List (List Cell) → Nat → List Line → Option LayoutCache →
    List Line × Option LayoutCache
  | [], _, lines, cache => (lines, cache)
  | row :: rest, ri, lines, cache =>
      let hit? := match cache with
        | some c => c.get_table_row blockId ri (sigRow row)
        | none => none
      match hit? with
      | some hit => tableRowsLoop width blockId rest (ri + 1) (lines ++ hit) cache
      | none =>
          let rowLine : Line := ⟨rowText row, width⟩
          let cache2 := match cache with
            | some c => some (c.put_table_row blockId ri (sigRow row) [rowLine])
            | none => none
          tableRowsLoop width blockId rest (ri + 1) (lines ++ [rowLine]) cache2

/-- `LayoutEngine::layout_block_inner` from `layout.rs`.  `meas` abstracts the
engine's deterministic measurer, `breakFn` the Unicode line breaker; `cache`
is the optional `&mut LayoutCache` (sub-item memoisation), `st` the engine's
own mutable caches. -/
def layout_block_inner (meas : LC → FontMetrics → ℚ) (breakFn : LC → List Nat)
    (block : Block) (config : LayoutConfig)
    (cache : Option LayoutCache) (st : EngineState) :
    LayoutBlock × Option LayoutCache × EngineState :=
  let width := config.page_width - config.margin * 2
  match block with
  | .heading i level content _ =>
      let text := joinInlines content
      let r := wrap_text_with_pool meas breakFn text width config.metrics cache st
      (⟨i, .heading level, r.1,
        (r.1.length : ℚ) * config.metrics.font_size * config.metrics.line_height,
        none⟩, r.2.1, r.2.2)
  | .paragraph i content _ =>
      let text := joinInlines content
      let r := wrap_text_with_pool meas breakFn text width config.metrics cache st
      (⟨i, .paragraph, r.1,
        (r.1.length : ℚ) * config.metrics.font_size * config.metrics.line_height,
        none⟩, r.2.1, r.2.2)
  | .list i _ items _ =>
      let r := listItemsLoop meas breakFn config width i items 0 [] cache st
      (⟨i, .list, r.1,
        (r.1.length : ℚ) * config.metrics.font_size * config.metrics.line_height,
        none⟩, r.2.1, r.2.2)
  | .quote i content _ =>
      let r := quoteItemsLoop meas breakFn config width i content 0 [] cache st
      (⟨i, .quote, r.1,
        (r.1.length : ℚ) * config.metrics.font_size * config.metrics.line_height,
        none⟩, r.2.1, r.2.2)
  | .code i _ codeText _ =>
      let lines := (rustLines codeText).map
        (fun l => (⟨l, meas l config.metrics⟩ : Line))
      (⟨i, .code, lines,
        (lines.length : ℚ) * config.metrics.font_size * config.metrics.line_height,
        none⟩, cache, st)
  | .table i rows _ =>
      let r := tableRowsLoop width i rows 0 [] cache
      let height :=
        (r.1.length : ℚ) * config.metrics.font_size * config.metrics.line_height
      (⟨i, .table, r.1, height, some ⟨width, height⟩⟩, r.2, st)
  | .figure i url caption size _ =>
      let ast := images_load url st
      let asset_w := match size with | some sz => max sz.width 1 | none => ast.1.width
      let asset_h := match size with | some sz => max sz.height 1 | none => ast.1.height
      let fig_height := asset_h
      let text := caption.getD ['图', '片']
      let r := wrap_text_with_pool meas breakFn text width config.metrics cache ast.2
      (⟨i, .figure, r.1,
        fig_height +
          (r.1.length : ℚ) * config.metrics.font_size * config.metrics.line_height,
        some ⟨asset_w, asset_h⟩⟩, r.2.1, r.2.2)

/-- `LayoutEngine::layout_block`: no cache. -/
def layout_block (meas : LC → FontMetrics → ℚ) (breakFn : LC → List Nat)
    (block : Block) (config : LayoutConfig) (st : EngineState) :
    LayoutBlock × EngineState :=
  let r := layout_block_inner meas breakFn block config none st
  (r.1, r.2.2)

/-- `LayoutEngine::layout_block_with_pool`: with the cache. -/
def layout_block_with_pool (meas : LC → FontMetrics → ℚ) (breakFn : LC → List Nat)
    (block : Block) (config : LayoutConfig) (cache : LayoutCache) (st : EngineState) :
    LayoutBlock × LayoutCache × EngineState :=
  let r := layout_block_inner meas breakFn block config (some cache) st
  (r.1, r.2.1.getD cache, r.2.2)

/-- One step of the pagination loop shared verbatim by `layout`,
`layout_cached` and `paginate_blocks` (layout.rs:150-159, 224-233, 666-678):
start a new page when adding the block would exceed `max_height` and the
current page is nonempty. -/
def paginateStep (paged : Bool) (maxHeight : ℚ) (pages : List Page)
    (current : Page) (lb : LayoutBlock) : List Page × Page :=
  if paged ∧ maxHeight < current.height + lb.height ∧ current.blocks ≠ [] then
    (pages ++ [current], ⟨pages.length + 2, [lb], lb.height⟩)
  else
    (pages, ⟨current.number, current.blocks ++ [lb], current.height + lb.height⟩)

/-- The pagination fold underlying `paginate_blocks` (layout.rs:658-681). -/
def paginateCore (paged : Bool) (maxHeight : ℚ) :
    List LayoutBlock → List Page → Page → List Page × Page
  | [], pages, current => (pages, current)
  | lb :: rest, pages, current =>
      let pc := paginateStep paged maxHeight pages current lb
      paginateCore paged maxHeight rest pc.1 pc.2

/-- `paginate_blocks` from `layout.rs`: paginate pre-laid-out blocks. -/
def paginate_blocks (blocks : List LayoutBlock) (config : LayoutConfig) : LayoutTree :=
  let maxHeight := config.page_height - config.margin * 2
  let pc := paginateCore config.paged maxHeight blocks [] ⟨1, [], 0⟩
  ⟨pc.1 ++ [pc.2]⟩

/-- The block loop of `LayoutEngine::layout` (layout.rs:147-160): lay out each
block (no cache) and paginate as it goes. -/
def layoutGo (meas : LC → FontMetrics → ℚ) (breakFn : LC → List Nat)
    (config : LayoutConfig) :
    List Block → EngineState → List Page → Page → LayoutTree × EngineState
  | [], st, pages, current => (⟨pages ++ [current]⟩, st)
  | b :: rest, st, pages, current =>
      let r := layout_block_inner meas breakFn b config none st
      let pc := paginateStep config.paged (config.page_height - config.margin * 2)
        pages current r.1
      layoutGo meas breakFn config rest r.2.2 pc.1 pc.2

/-- `LayoutEngine::layout` from `layout.rs`.  `prewarm_if_needed` touches only
the glyph cache (which never changes measured values); the `parallel` feature
path is compiled out. -/
def layout (meas : LC → FontMetrics → ℚ) (breakFn : LC → List Nat)
    (doc : Document) (config : LayoutConfig) (st : EngineState) :
    LayoutTree × EngineState :=
  layoutGo meas breakFn config doc.blocks st [] ⟨1, [], 0⟩

/-- The per-block cache decision of `LayoutEngine::layout_cached`
(layout.rs:200-222): effectively-dirty blocks are revalidated against the
stored content signature before recomputation; clean blocks are trusted from
the cache; misses are computed and inserted with their signature. -/
def layout_cached_step (meas : LC → FontMetrics → ℚ) (breakFn : LC → List Nat)
    (config : LayoutConfig) (block : Block) (cache : LayoutCache)
    (st : EngineState) : LayoutBlock × LayoutCache × EngineState :=
  let dirty := is_effectively_dirty block
  let sig := hash_block block
  if dirty then
    match cache.get block.idOf with
    | some hit =>
        if cache.signature block.idOf = some sig then (hit, cache, st)
        else
          let r := layout_block_with_pool meas breakFn block config cache st
          (r.1, (r.2.1).insert_with_sig block.idOf r.1 sig, r.2.2)
    | none =>
        let r := layout_block_with_pool meas breakFn block config cache st
        (r.1, (r.2.1).insert_with_sig block.idOf r.1 sig, r.2.2)
  else
    match cache.get block.idOf with
    | some hit => (hit, cache, st)
    | none =>
        let r := layout_block_with_pool meas breakFn block config cache st
        (r.1, (r.2.1).insert_with_sig block.idOf r.1 sig, r.2.2)

/-- The block loop of `LayoutEngine::layout_cached` (layout.rs:199-234). -/
def layoutCachedGo (meas : LC → FontMetrics → ℚ) (breakFn : LC → List Nat)
    (config : LayoutConfig) :
    List Block → LayoutCache → EngineState → List Page → Page →
    LayoutTree × LayoutCache × EngineState
  | [], cache, st, pages, current => (⟨pages ++ [current]⟩, cache, st)
  | b :: rest, cache, st, pages, current =>
      let r := layout_cached_step meas breakFn config b cache st
      let pc := paginateStep config.paged (config.page_height - config.margin * 2)
        pages current r.1
      layoutCachedGo meas breakFn config rest r.2.1 r.2.2 pc.1 pc.2

/-- `LayoutEngine::layout_cached` from `layout.rs`. -/
def layout_cached (meas : LC → FontMetrics → ℚ) (breakFn : LC → List Nat)
    (doc : Document) (config : LayoutConfig) (cache : LayoutCache)
    (st : EngineState) : LayoutTree × LayoutCache × EngineState :=
  layoutCachedGo meas breakFn config doc.blocks cache st [] ⟨1, [], 0⟩

/-- `RenderCache` from `render_cache.rs`; the `HashSet<Uuid>` of dirty block
ids becomes a duplicate-free list, the `f32` threshold an exact rational. -/
structure RenderCache where
  dirty_blocks : List Nat
  dirty_threshold : ℚ

/-- `RenderCache::new` (threshold 0.05). -/
def RenderCache.new : RenderCache := ⟨[], 0.05⟩

/-- `RenderCache::mark_dirty` (`HashSet::insert`). -/
def RenderCache.mark_dirty (rc : RenderCache) (id : Nat) : RenderCache :=
  if id ∈ rc.dirty_blocks then rc else ⟨id :: rc.dirty_blocks, rc.dirty_threshold⟩

/-- `RenderCache::clear`. -/
def RenderCache.clear (rc : RenderCache) : RenderCache := ⟨[], rc.dirty_threshold⟩

/-- `RenderCache::dirty_ratio` (named `dirtyShare` here). -/
def RenderCache.dirtyShare (rc : RenderCache) (total_blocks : Nat) : ℚ :=
  if total_blocks = 0 then 0
  else (rc.dirty_blocks.length : ℚ) / (total_blocks : ℚ)

/-- `RenderCache::is_dirty`. -/
def RenderCache.is_dirty (rc : RenderCache) (id : Nat) : Bool :=
  id ∈ rc.dirty_blocks

/-- `RenderCache::should_render` from `render_cache.rs`. -/
def RenderCache.should_render (rc : RenderCache) (id : Nat) (total_blocks : Nat) : Bool :=
  let ratio := rc.dirtyShare total_blocks
  if ratio = 0 then true
  else if ratio ≤ rc.dirty_threshold then rc.is_dirty id
  else true

/-- The sequence of per-block results of `LayoutEngine::layout` (each
`layout_block` call in document order, threading the engine state), used to
relate `layout` to pagination over a pre-computed block list. -/
def layoutBlocks (meas : LC → FontMetrics → ℚ) (breakFn : LC → List Nat)
    (config : LayoutConfig) : List Block → EngineState →
    List LayoutBlock × EngineState
  | [], st => ([], st)
  | b :: rest, st =>
      let r := layout_block_inner meas breakFn b config none st
      let t := layoutBlocks meas breakFn config rest r.2.2
      (r.1 :: t.1, t.2)

section TextLemmas

theorem byteLen_nil : byteLen [] = 0 := rfl

theorem byteLen_cons (c : Char) (t : LC) :
    byteLen (c :: t) = c.utf8Size + byteLen t := by
  simp [byteLen]

theorem byteLen_append (s t : LC) : byteLen (s ++ t) = byteLen s + byteLen t := by
  induction s with
  | nil => simp [byteLen]
  | cons c cs ih => simp [byteLen_cons, ih, Nat.add_assoc]

theorem offsetOf_zero (t : LC) : offsetOf t 0 = 0 := rfl

theorem offsetOf_nil (i : Nat) : offsetOf [] i = 0 := by
  simp [offsetOf, byteLen]

theorem offsetOf_cons_succ (c : Char) (t : LC) (i : Nat) :
    offsetOf (c :: t) (i + 1) = c.utf8Size + offsetOf t i := by
  simp [offsetOf, List.take_succ_cons, byteLen_cons]

theorem offsetOf_ge_len {t : LC} {i : Nat} (h : t.length ≤ i) :
    offsetOf t i = byteLen t := by
  simp [offsetOf, List.take_of_length_le h]

theorem offsetOf_le_byteLen (t : LC) (i : Nat) : offsetOf t i ≤ byteLen t := by
  induction t generalizing i with
  | nil => simp [offsetOf_nil, byteLen]
  | cons c cs ih =>
      cases i with
      | zero => simp [offsetOf_zero]
      | succ j => simp [offsetOf_cons_succ, byteLen_cons]; exact ih j

theorem offsetOf_succ {t : LC} {i : Nat} (h : i < t.length) :
    offsetOf t (i + 1) = offsetOf t i + (t.get ⟨i, h⟩).utf8Size := by
  induction t generalizing i with
  | nil => simp at h
  | cons c cs ih =>
      cases i with
      | zero => simp [offsetOf_cons_succ, offsetOf_zero]
      | succ j =>
          have hj : j < cs.length := by simpa using h
          simp [offsetOf_cons_succ, ih hj, Nat.add_assoc]

theorem offsetOf_mono (t : LC) {i j : Nat} (h : i ≤ j) :
    offsetOf t i ≤ offsetOf t j := by
  induction t generalizing i j with
  | nil => simp [offsetOf_nil]
  | cons c cs ih =>
      cases i with
      | zero => simp [offsetOf_zero]
      | succ i' =>
          cases j with
          | zero => omega
          | succ j' =>
              simp only [offsetOf_cons_succ]
              exact Nat.add_le_add_left (ih (by omega)) _

theorem offsetOf_lt_of_lt {t : LC} {i j : Nat} (hi : i < t.length) (h : i < j) :
    offsetOf t i < offsetOf t j := by
  have h1 : offsetOf t (i + 1) ≤ offsetOf t j := offsetOf_mono t h
  have h2 := offsetOf_succ hi
  have h3 : 0 < (t.get ⟨i, hi⟩).utf8Size := Char.utf8Size_pos _
  omega

theorem offsetOf_lt_byteLen {t : LC} {i : Nat} (hi : i < t.length) :
    offsetOf t i < byteLen t := by
  have h1 : offsetOf t i < offsetOf t (i + 1) := offsetOf_lt_of_lt hi (Nat.lt_succ_self i)
  have h2 : offsetOf t (i + 1) ≤ byteLen t := offsetOf_le_byteLen t (i + 1)
  exact lt_of_lt_of_le h1 h2

theorem lt_of_offsetOf_lt {t : LC} {i j : Nat} (hj : j ≤ t.length)
    (h : offsetOf t i < offsetOf t j) : i < j := by
  by_contra hc
  exact absurd (offsetOf_mono t (Nat.le_of_not_lt hc)) (Nat.not_le_of_lt h)

theorem charIndicesFrom_map_snd (n : Nat) (t : LC) :
    (charIndicesFrom n t).map Prod.snd = t := by
  induction t generalizing n with
  | nil => rfl
  | cons c cs ih => simp [charIndicesFrom, ih]

theorem charIndicesFrom_append (n : Nat) (s t : LC) :
    charIndicesFrom n (s ++ t) =
      charIndicesFrom n s ++ charIndicesFrom (n + byteLen s) t := by
  induction s generalizing n with
  | nil => simp [charIndicesFrom, byteLen]
  | cons c cs ih =>
      simp [charIndicesFrom, byteLen_cons, ih, Nat.add_assoc]

theorem dropWhile_charIndicesFrom (t : LC) (n i : Nat) :
    (charIndicesFrom n t).dropWhile (fun p => p.1 < n + offsetOf t i) =
      charIndicesFrom (n + offsetOf t i) (t.drop i) := by
  induction t generalizing n i with
  | nil => simp [charIndicesFrom, offsetOf_nil]
  | cons c cs ih =>
      cases i with
      | zero =>
          simp [charIndicesFrom, offsetOf_zero, List.dropWhile_cons]
      | succ j =>
          have hpos : 0 < c.utf8Size := Char.utf8Size_pos c
          have hlt : ((n, c) : Nat × Char).1 < n + offsetOf (c :: cs) (j + 1) := by
            simp only [offsetOf_cons_succ]; omega
          rw [charIndicesFrom, List.dropWhile_cons, if_pos (decide_eq_true hlt)]
          simp only [offsetOf_cons_succ]
          have := ih (n + c.utf8Size) j
          rw [show n + (c.utf8Size + offsetOf cs j) = n + c.utf8Size + offsetOf cs j from by
            omega]
          exact this

theorem takeWhile_charIndicesFrom (t : LC) (n i : Nat) :
    (charIndicesFrom n t).takeWhile (fun p => p.1 < n + offsetOf t i) =
      charIndicesFrom n (t.take i) := by
  induction t generalizing n i with
  | nil => simp [charIndicesFrom]
  | cons c cs ih =>
      cases i with
      | zero =>
          simp [charIndicesFrom, offsetOf_zero, List.takeWhile_cons]
      | succ j =>
          have hpos : 0 < c.utf8Size := Char.utf8Size_pos c
          have hlt : ((n, c) : Nat × Char).1 < n + offsetOf (c :: cs) (j + 1) := by
            simp only [offsetOf_cons_succ]; omega
          rw [charIndicesFrom, List.takeWhile_cons, if_pos (decide_eq_true hlt)]
          simp only [offsetOf_cons_succ, List.take_succ_cons, charIndicesFrom]
          have := ih (n + c.utf8Size) j
          rw [show n + (c.utf8Size + offsetOf cs j) = n + c.utf8Size + offsetOf cs j from by
            omega]
          simp [this]

theorem byteDrop_offsetOf (t : LC) (i : Nat) :
    byteDrop t (offsetOf t i) = t.drop i := by
  have := dropWhile_charIndicesFrom t 0 i
  simp only [Nat.zero_add] at this
  simp [byteDrop, charIndices, this, charIndicesFrom_map_snd]

theorem byteTake_offsetOf (t : LC) (i : Nat) :
    byteTake t (offsetOf t i) = t.take i := by
  have := takeWhile_charIndicesFrom t 0 i
  simp only [Nat.zero_add] at this
  simp [byteTake, charIndices, this, charIndicesFrom_map_snd]

theorem byteSlice_offsetOf (t : LC) {i j : Nat} (hij : i ≤ j) :
    byteSlice t (offsetOf t i) (offsetOf t j) = (t.drop i).take (j - i) := by
  have hd := dropWhile_charIndicesFrom t 0 i
  simp only [Nat.zero_add] at hd
  have hsplit : offsetOf t j = offsetOf t i + offsetOf (t.drop i) (j - i) := by
    have : t.take j = t.take i ++ (t.drop i).take (j - i) := by
      rw [← List.take_add]
      congr 1
      omega
    simp [offsetOf, this, byteLen_append]
  have ht := takeWhile_charIndicesFrom (t.drop i) (offsetOf t i) (j - i)
  simp only [byteSlice, charIndices, hd, hsplit]
  rw [ht, charIndicesFrom_map_snd]

theorem isCharBoundary_offsetOf (t : LC) (i : Nat) :
    isCharBoundary t (offsetOf t i) := by
  by_cases h : i ≤ t.length
  · exact ⟨i, h, rfl⟩
  · exact ⟨t.length, le_refl _, by rw [offsetOf_ge_len (by omega), offsetOf_ge_len (le_refl _)]⟩

end TextLemmas

section AdjustLemmas

/-- Total character access used to state boundary lemmas. -/
def charAt (t : LC) (i : Nat) : Char := t.getD i '\x00'

theorem charAt_eq_get {t : LC} {i : Nat} (h : i < t.length) :
    charAt t i = t.get ⟨i, h⟩ := by
  simp [charAt, List.getD_eq_getElem?_getD, List.getElem?_eq_getElem h]

theorem charIndicesFrom_head (n : Nat) (c : Char) (t : LC) :
    (charIndicesFrom n (c :: t)).head? = some (n, c) := by
  simp [charIndicesFrom]

theorem next_char_offsetOf_lt {t : LC} {i : Nat} (hi : i < t.length) :
    next_char t (offsetOf t i) = some (charAt t i) := by
  have hb : ¬ byteLen t ≤ offsetOf t i := by
    have := offsetOf_lt_byteLen hi
    omega
  have hd := dropWhile_charIndicesFrom t 0 i
  simp only [Nat.zero_add] at hd
  have hdrop : t.drop i = charAt t i :: t.drop (i + 1) := by
    rw [charAt_eq_get hi]
    exact (List.get_cons_drop t ⟨i, hi⟩).symm
  rw [next_char, if_neg hb, charIndices, hd, hdrop, charIndicesFrom_head]
  rfl

theorem next_char_offsetOf_ge {t : LC} {i : Nat} (hi : t.length ≤ i) :
    next_char t (offsetOf t i) = none := by
  rw [next_char, if_pos]
  rw [offsetOf_ge_len hi]

theorem next_char_index_offsetOf_lt {t : LC} {i : Nat} (hi : i < t.length) :
    next_char_index t (offsetOf t i) = some (offsetOf t (i + 1)) := by
  have hb : ¬ byteLen t ≤ offsetOf t i := by
    have := offsetOf_lt_byteLen hi
    omega
  have hd := dropWhile_charIndicesFrom t 0 i
  simp only [Nat.zero_add] at hd
  have hdrop : t.drop i = charAt t i :: t.drop (i + 1) := by
    rw [charAt_eq_get hi]
    exact (List.get_cons_drop t ⟨i, hi⟩).symm
  rw [next_char_index, if_neg hb, charIndices, hd, hdrop, charIndicesFrom_head]
  simp [offsetOf_succ hi, charAt_eq_get hi]

theorem next_char_index_offsetOf_ge {t : LC} {i : Nat} (hi : t.length ≤ i) :
    next_char_index t (offsetOf t i) = none := by
  rw [next_char_index, if_pos]
  rw [offsetOf_ge_len hi]

theorem prev_char_offsetOf_succ {t : LC} {i : Nat} (hi : i < t.length) :
    prev_char t (offsetOf t (i + 1)) = some (offsetOf t i, charAt t i) := by
  have hpos : 0 < offsetOf t (i + 1) := by
    have h1 : offsetOf t 0 < offsetOf t (i + 1) :=
      offsetOf_lt_of_lt (by omega) (by omega)
    simpa [offsetOf_zero] using h1
  have hle : offsetOf t (i + 1) ≤ byteLen t := offsetOf_le_byteLen t (i + 1)
  have ht := takeWhile_charIndicesFrom t 0 (i + 1)
  simp only [Nat.zero_add] at ht
  rw [prev_char, if_neg (by omega), charIndices, ht]
  have htake : t.take (i + 1) = t.take i ++ [charAt t i] := by
    rw [List.take_succ, List.getElem?_eq_getElem hi, charAt_eq_get hi]
    rfl
  rw [htake, charIndicesFrom_append, List.getLast?_append]
  simp [charIndicesFrom, offsetOf]

theorem prev_char_zero (t : LC) : prev_char t 0 = none := by
  simp [prev_char]

theorem forbidden_start_end_disjoint {c : Char}
    (h : is_forbidden_line_end c = true) : is_forbidden_line_start c = false := by
  simp only [is_forbidden_line_end, List.mem_cons, List.not_mem_nil, or_false,
    decide_eq_true_eq] at h
  rcases h with h | h | h | h | h | h | h | h | h | h | h | h | h | h <;>
    subst h <;> decide

/-- Full characterisation of `adjust_break` at a character boundary strictly
after the segment start: index-space view of the backward then forward shift. -/
theorem adjust_break_boundary (t : LC) (start : Nat) {i : Nat} (hi : i ≤ t.length)
    (h0 : 0 < i) (hstart : start < offsetOf t i) :
    adjust_break t start (offsetOf t i) =
      (let m := if is_forbidden_line_end (charAt t (i - 1)) = true ∧
                   start < offsetOf t (i - 1)
                then i - 1 else i
       if m < t.length ∧ is_forbidden_line_start (charAt t m) = true
       then offsetOf t (m + 1) else offsetOf t m) := by
  have hi0 : i - 1 < t.length := by omega
  have hsucc : i - 1 + 1 = i := by omega
  rw [adjust_break, if_neg (by omega)]
  have hprev : prev_char t (offsetOf t i) = some (offsetOf t (i - 1), charAt t (i - 1)) := by
    have := prev_char_offsetOf_succ hi0
    rwa [hsucc] at this
  simp only [hprev]
  by_cases hb : is_forbidden_line_end (charAt t (i - 1)) = true ∧
      start < offsetOf t (i - 1)
  · have hbT := eq_true hb
    simp only [hbT, if_true]
    rw [next_char_offsetOf_lt hi0]
    by_cases hf : is_forbidden_line_start (charAt t (i - 1)) = true
    · have hfT := eq_true hf
      simp only [hfT, if_true, next_char_index_offsetOf_lt hi0]
      have : (i - 1 < t.length ∧ True) = True := by simp [hi0]
      simp [this]
    · have hfF := eq_false hf
      simp only [hfF, if_false]
      have : (i - 1 < t.length ∧ False) = False := by simp
      simp [this]
  · have hbF := eq_false hb
    simp only [hbF, if_false]
    by_cases hil : i < t.length
    · rw [next_char_offsetOf_lt hil]
      by_cases hf : is_forbidden_line_start (charAt t i) = true
      · have hfT := eq_true hf
        simp only [hfT, if_true, next_char_index_offsetOf_lt hil]
        have : (i < t.length ∧ True) = True := by simp [hil]
        simp [this]
      · have hfF := eq_false hf
        simp only [hfF, if_false]
        have : (i < t.length ∧ False) = False := by simp
        simp [this]
    · have hge : t.length ≤ i := by omega
      rw [next_char_offsetOf_ge hge]
      have : (i < t.length ∧ is_forbidden_line_start (charAt t i) = true) = False := by
        simp [hil]
      simp [this]

theorem forbidden_end_start_disjoint {c : Char}
    (h : is_forbidden_line_start c = true) : is_forbidden_line_end c = false := by
  simp only [is_forbidden_line_start, List.mem_cons, List.not_mem_nil, or_false,
    decide_eq_true_eq] at h
  rcases h with h | h | h | h | h | h | h | h | h | h | h | h | h | h | h | h | h |
    h | h | h | h | h | h | h <;> subst h <;> decide

theorem charAt_of_le {t : LC} {i : Nat} (h : t.length ≤ i) : charAt t i = '\x00' := by
  simp [charAt, List.getD_eq_getElem?_getD, List.getElem?_eq_none h]

theorem next_char_index_ge {t : LC} {idx v : Nat}
    (h : next_char_index t idx = some v) : idx ≤ v := by
  rw [next_char_index] at h
  by_cases hb : byteLen t ≤ idx
  · rw [if_pos hb] at h; exact absurd h (by simp)
  · rw [if_neg hb] at h
    rcases hh : (List.dropWhile (fun p => p.1 < idx) (charIndices t)).head? with _ | p
    · rw [hh] at h; exact absurd h (by simp)
    · rw [hh] at h
      simp at h
      omega

/-- `adjust_break` never moves a candidate that is at or after the segment
start to strictly before it. -/
theorem adjust_break_ge (t : LC) (start p : Nat) (h : start ≤ p) :
    start ≤ adjust_break t start p := by
  rw [adjust_break]
  by_cases hle : p ≤ start
  · rw [if_pos hle]; omega
  · rw [if_neg hle]
    have key : ∀ bp1 : Nat, start ≤ bp1 →
        start ≤ (match next_char t bp1 with
          | some nc => if is_forbidden_line_start nc = true
              then (next_char_index t bp1).getD bp1 else bp1
          | none => bp1) := by
      intro bp1 h1
      cases hnc : next_char t bp1 with
      | none => simpa using h1
      | some nc =>
          simp only
          by_cases hf : is_forbidden_line_start nc = true
          · rw [if_pos hf]
            cases hni : next_char_index t bp1 with
            | none => simpa using h1
            | some v =>
                have := next_char_index_ge hni
                simp only [Option.getD_some]
                omega
          · rw [if_neg hf]; exact h1
    cases hpc : prev_char t p with
    | none => exact key p (by omega)
    | some pc =>
        simp only
        by_cases hcond : is_forbidden_line_end pc.2 = true ∧ start < pc.1
        · rw [if_pos hcond]
          exact key pc.1 (by omega)
        · rw [if_neg hcond]
          exact key p (by omega)


theorem bool_not_and_left {b c : Bool} (h : ¬(b = true ∧ c = true))
    (hc : c = true) : b = false := by
  cases b with
  | false => rfl
  | true => exact absurd ⟨rfl, hc⟩ h

theorem bool_not_and_right {b c : Bool} (h : ¬(b = true ∧ c = true))
    (hb : b = true) : c = false := by
  cases c with
  | false => rfl
  | true => exact absurd ⟨hb, rfl⟩ h

/-- Freedom from adjacent runs of forbidden line-end characters. -/
def NoEndRuns (t : LC) : Prop :=
  ∀ j < t.length, ¬(is_forbidden_line_end (charAt t j) = true ∧
      is_forbidden_line_end (charAt t (j + 1)) = true)

/-- Freedom from adjacent runs of forbidden line-start characters. -/
def NoStartRuns (t : LC) : Prop :=
  ∀ j < t.length, ¬(is_forbidden_line_start (charAt t j) = true ∧
      is_forbidden_line_start (charAt t (j + 1)) = true)

instance (t : LC) : Decidable (NoEndRuns t) :=
  inferInstanceAs (Decidable (∀ j, j < t.length →
    ¬(is_forbidden_line_end (charAt t j) = true ∧
      is_forbidden_line_end (charAt t (j + 1)) = true)))

instance (t : LC) : Decidable (NoStartRuns t) :=
  inferInstanceAs (Decidable (∀ j, j < t.length →
    ¬(is_forbidden_line_start (charAt t j) = true ∧
      is_forbidden_line_start (charAt t (j + 1)) = true)))

/-- On a run-free text, the adjusted break neither follows an opening
bracket/quote (provided the blocked-at-segment-start case is excluded) nor
precedes closing/terminal punctuation. -/
theorem adjust_break_no_forbidden (t : LC) (start : Nat) {i : Nat}
    (hi : i ≤ t.length) (h0 : 0 < i) (hstart : start < offsetOf t i)
    (hmargin : is_forbidden_line_end (charAt t (i - 1)) = true →
      start < offsetOf t (i - 1))
    (hE : NoEndRuns t) (hS : NoStartRuns t) :
    ∃ j, adjust_break t start (offsetOf t i) = offsetOf t j ∧ 0 < j ∧
      j ≤ t.length ∧
      is_forbidden_line_end (charAt t (j - 1)) = false ∧
      is_forbidden_line_start (charAt t j) = false := by
  rw [adjust_break_boundary t start hi h0 hstart]
  by_cases hb : is_forbidden_line_end (charAt t (i - 1)) = true ∧
      start < offsetOf t (i - 1)
  · have hbT := eq_true hb
    simp only [hbT, if_true]
    have hfS : is_forbidden_line_start (charAt t (i - 1)) = false :=
      forbidden_start_end_disjoint hb.1
    have hcond : (i - 1 < t.length ∧ is_forbidden_line_start (charAt t (i - 1)) = true) =
        False := by simp [hfS]
    simp only [hcond, if_false]
    have hi0pos : 0 < i - 1 := by
      by_contra hc
      have : i - 1 = 0 := by omega
      rw [this, offsetOf_zero] at hb
      omega
    refine ⟨i - 1, rfl, hi0pos, by omega, ?_, hfS⟩
    have hrun := hE (i - 1 - 1) (by omega)
    have hsucc : i - 1 - 1 + 1 = i - 1 := by omega
    rw [hsucc] at hrun
    exact bool_not_and_left hrun hb.1
  · have hbF := eq_false hb
    simp only [hbF, if_false]
    have hEi0 : is_forbidden_line_end (charAt t (i - 1)) = false := by
      cases hcase : is_forbidden_line_end (charAt t (i - 1)) with
      | false => rfl
      | true => exact absurd ⟨hcase, hmargin hcase⟩ hb
    by_cases hm : i < t.length ∧ is_forbidden_line_start (charAt t i) = true
    · have hmT := eq_true hm
      simp only [hmT, if_true]
      refine ⟨i + 1, rfl, by omega, by omega, ?_, ?_⟩
      · have hsucc : i + 1 - 1 = i := by omega
        rw [hsucc]
        exact forbidden_end_start_disjoint hm.2
      · exact bool_not_and_right (hS i hm.1) hm.2
    · have hmF := eq_false hm
      simp only [hmF, if_false]
      refine ⟨i, rfl, h0, hi, hEi0, ?_⟩
      by_cases hil : i < t.length
      · cases hcase : is_forbidden_line_start (charAt t i) with
        | false => rfl
        | true => exact absurd ⟨hil, hcase⟩ hm
      · rw [charAt_of_le (by omega)]
        decide

/-- On a run-free text, `adjust_break` is idempotent at character-boundary
candidates. -/
theorem adjust_break_idem (t : LC) (start : Nat) {i : Nat}
    (hi : i ≤ t.length) (h0 : 0 < i) (hstart : start < offsetOf t i)
    (hE : NoEndRuns t) (hS : NoStartRuns t) :
    adjust_break t start (adjust_break t start (offsetOf t i)) =
      adjust_break t start (offsetOf t i) := by
  rw [adjust_break_boundary t start hi h0 hstart]
  by_cases hb : is_forbidden_line_end (charAt t (i - 1)) = true ∧
      start < offsetOf t (i - 1)
  · have hbT := eq_true hb
    simp only [hbT, if_true]
    have hfS : is_forbidden_line_start (charAt t (i - 1)) = false :=
      forbidden_start_end_disjoint hb.1
    have hcond : (i - 1 < t.length ∧ is_forbidden_line_start (charAt t (i - 1)) = true) =
        False := by simp [hfS]
    simp only [hcond, if_false]
    have hi0pos : 0 < i - 1 := by
      by_contra hc
      have : i - 1 = 0 := by omega
      rw [this, offsetOf_zero] at hb
      omega
    rw [adjust_break_boundary t start (by omega) hi0pos hb.2]
    have hEprev : is_forbidden_line_end (charAt t (i - 1 - 1)) = false := by
      have hrun := hE (i - 1 - 1) (by omega)
      have hsucc : i - 1 - 1 + 1 = i - 1 := by omega
      rw [hsucc] at hrun
      exact bool_not_and_left hrun hb.1
    have hcond2 : (is_forbidden_line_end (charAt t (i - 1 - 1)) = true ∧
        start < offsetOf t (i - 1 - 1)) = False := by simp [hEprev]
    simp only [hcond2, if_false]
    have hcond3 : (i - 1 < t.length ∧ is_forbidden_line_start (charAt t (i - 1)) = true) =
        False := by simp [hfS]
    simp only [hcond3, if_false]
  · have hbF := eq_false hb
    simp only [hbF, if_false]
    by_cases hm : i < t.length ∧ is_forbidden_line_start (charAt t i) = true
    · have hmT := eq_true hm
      simp only [hmT, if_true]
      have hstart2 : start < offsetOf t (i + 1) :=
        lt_of_lt_of_le hstart (offsetOf_mono t (by omega))
      rw [adjust_break_boundary t start (by omega) (by omega) hstart2]
      have hsucc : i + 1 - 1 = i := by omega
      have hEd : is_forbidden_line_end (charAt t i) = false :=
        forbidden_end_start_disjoint hm.2
      have hcond2 : (is_forbidden_line_end (charAt t (i + 1 - 1)) = true ∧
          start < offsetOf t (i + 1 - 1)) = False := by
        rw [hsucc]; simp [hEd]
      simp only [hcond2, if_false]
      have hSnext : is_forbidden_line_start (charAt t (i + 1)) = false :=
        bool_not_and_right (hS i hm.1) hm.2
      have hcond3 : (i + 1 < t.length ∧ is_forbidden_line_start (charAt t (i + 1)) = true) =
          False := by simp [hSnext]
      simp only [hcond3, if_false]
    · have hmF := eq_false hm
      simp only [hmF, if_false]
      rw [adjust_break_boundary t start hi h0 hstart]
      simp only [hbF, if_false, hmF]

end AdjustLemmas

section WrapLemmas

theorem drop_cons_facts {t : LC} {k : Nat} {c : Char} {cs' : LC}
    (h : t.drop k = c :: cs') :
    k < t.length ∧ charAt t k = c ∧ t.drop (k + 1) = cs' := by
  have hk : k < t.length := by
    apply List.length_lt_of_drop_ne_nil
    rw [h]
    simp
  have hcons := List.getElem_cons_drop t k hk
  rw [h] at hcons
  have h1 : t[k] = c := by
    have h3 := congrArg List.head? hcons
    simp only [List.head?_cons, Option.some_inj] at h3
    exact h3
  have h2 : t.drop (k + 1) = cs' := by
    have := congrArg List.tail hcons
    simpa using this
  refine ⟨hk, ?_, h2⟩
  rw [charAt_eq_get hk]
  simpa using h1

theorem adjust_break_boundary_range (t : LC) (start : Nat) {j : Nat}
    (hj : j ≤ t.length) (h0 : 0 < j) (hstart : start < offsetOf t j) :
    ∃ j', adjust_break t start (offsetOf t j) = offsetOf t j' ∧
      start < offsetOf t j' ∧ j' ≤ j + 1 ∧ j' ≤ t.length := by
  rw [adjust_break_boundary t start hj h0 hstart]
  by_cases hb : is_forbidden_line_end (charAt t (j - 1)) = true ∧
      start < offsetOf t (j - 1)
  · have hbT := eq_true hb
    simp only [hbT, if_true]
    by_cases hm : j - 1 < t.length ∧ is_forbidden_line_start (charAt t (j - 1)) = true
    · have hmT := eq_true hm
      simp only [hmT, if_true]
      refine ⟨j - 1 + 1, rfl, ?_, by omega, by omega⟩
      exact lt_of_lt_of_le hb.2 (offsetOf_mono t (by omega))
    · have hmF := eq_false hm
      simp only [hmF, if_false]
      exact ⟨j - 1, rfl, hb.2, by omega, by omega⟩
  · have hbF := eq_false hb
    simp only [hbF, if_false]
    by_cases hm : j < t.length ∧ is_forbidden_line_start (charAt t j) = true
    · have hmT := eq_true hm
      simp only [hmT, if_true]
      refine ⟨j + 1, rfl, ?_, by omega, by omega⟩
      exact lt_of_lt_of_le hstart (offsetOf_mono t (by omega))
    · have hmF := eq_false hm
      simp only [hmF, if_false]
      exact ⟨j, rfl, hstart, by omega, hj⟩

theorem nextPos_eq {t : LC} {k : Nat} {cs' : LC} (h : t.drop (k + 1) = cs') :
    (((charIndicesFrom (offsetOf t (k + 1)) cs').head?).map Prod.fst).getD
      (byteLen t) = offsetOf t (k + 1) := by
  cases cs' with
  | nil =>
      have hlen : t.length ≤ k + 1 := by
        by_contra hc
        have : t.drop (k + 1) ≠ [] := by
          apply List.ne_nil_of_length_pos
          simp
          omega
        exact this h
      simp [charIndicesFrom, offsetOf_ge_len hlen]
  | cons d ds => simp [charIndicesFrom]

/-- Master invariant of the wrap loop: the emitted line texts are the
end-trimmed nonempty segments of a character-aligned segmentation of the
input, with the empty-output fallback.  The measured widths never influence
which texts are emitted, only which branch of the loop ran. -/
theorem wrapGo_covers (meas : LC → ℚ) (t : LC) (width : ℚ) :
    ∀ (cs : List Char) (k : Nat), t.drop k = cs →
    ∀ (bks : List Nat) (i : Nat) (lb : Option Nat) (lbw cw : ℚ) (out : List Line)
      (segs : List LC),
      i ≤ k → k ≤ t.length →
      (∀ p, lb = some p → ∃ j, j ≤ k ∧ p = offsetOf t j) →
      segs.join = t.take i →
      out.map Line.text = (segs.map trimEnd).filter (fun s => ¬s = []) →
      ∃ segs' : List LC, segs'.join = t ∧
        ((wrapGo meas t width (charIndicesFrom (offsetOf t k) cs) bks (offsetOf t i)
            lb lbw cw out).map Line.text =
          if ((segs'.map trimEnd).filter (fun s => ¬s = [])) = [] then [[]]
          else (segs'.map trimEnd).filter (fun s => ¬s = []))
  | [], k, hdrop, bks, i, lb, lbw, cw, out, segs, hik, hkt, hlb, hjoin, hout => by
      refine ⟨segs ++ [t.drop i], by simp [hjoin], ?_⟩
      rw [show charIndicesFrom (offsetOf t k) [] = [] from rfl]
      rw [wrapGo]
      rw [byteDrop_offsetOf]
      by_cases hsl : trimEnd (List.drop i t) = []
      · rw [if_neg (show ¬ (trimEnd (List.drop i t) ≠ []) from by simp [hsl])]
        have hR : List.filter (fun s => decide ¬s = [])
            (List.map trimEnd [List.drop i t]) = [] := by simp [hsl]
        rw [List.map_append, List.filter_append, hR, List.append_nil]
        by_cases hoe : out = []
        · rw [if_pos hoe]
          have h0 : List.filter (fun s => decide ¬s = []) (List.map trimEnd segs) = [] := by
            rw [← hout, hoe]; rfl
          rw [h0, if_pos rfl]
          rfl
        · rw [if_neg hoe]
          rw [if_neg (show ¬ List.filter (fun s => decide ¬s = [])
            (List.map trimEnd segs) = [] from by
              rw [← hout]; simpa using hoe)]
          exact hout
      · rw [if_pos (show trimEnd (List.drop i t) ≠ [] from hsl)]
        rw [if_neg (show ¬ (out ++ [(⟨trimEnd (List.drop i t),
            if (trimEnd (List.drop i t)).length = (List.drop i t).length
              then cw else meas (trimEnd (List.drop i t))⟩ : Line)]) = [] from by simp)]
        have hR : List.filter (fun s => decide ¬s = [])
            (List.map trimEnd [List.drop i t]) = [trimEnd (List.drop i t)] := by
          simp [hsl]
        rw [List.map_append, List.map_append, List.filter_append, hR]
        rw [if_neg (show ¬ (List.filter (fun s => decide ¬s = [])
            (List.map trimEnd segs) ++ [trimEnd (List.drop i t)]) = [] from by simp)]
        rw [hout]
        rfl
  | c :: cs', k, hdrop, bks, i, lb, lbw, cw, out, segs, hik, hkt, hlb, hjoin, hout => by
      obtain ⟨hk, hck, hdrop'⟩ := drop_cons_facts hdrop
      have hoff : offsetOf t k + c.utf8Size = offsetOf t (k + 1) := by
        rw [offsetOf_succ hk, ← charAt_eq_get hk, hck]
      rw [show charIndicesFrom (offsetOf t k) (c :: cs') =
            (offsetOf t k, c) :: charIndicesFrom (offsetOf t k + c.utf8Size) cs'
          from rfl, hoff]
      rw [wrapGo]
      have hlb2 : ∀ p,
          (if (bks.dropWhile (fun b => b < offsetOf t k)).head? = some (offsetOf t k)
            then some (offsetOf t k) else lb) = some p →
          ∃ j, j ≤ k ∧ p = offsetOf t j := by
        intro p hp
        by_cases hh : (bks.dropWhile (fun b => b < offsetOf t k)).head? =
            some (offsetOf t k)
        · rw [if_pos hh] at hp
          exact ⟨k, le_refl k, (Option.some_inj.mp hp).symm⟩
        · rw [if_neg hh] at hp
          exact hlb p hp
      by_cases hov : width < cw + meas [c] ∧ offsetOf t i < offsetOf t k
      · rw [if_pos hov]
        simp only []
        have hikk : i < k := lt_of_offsetOf_lt hkt hov.2
        have hbp1 : ∃ j1, j1 ≤ k ∧ 0 < j1 ∧ offsetOf t i < offsetOf t j1 ∧
            (if ((if (bks.dropWhile (fun b => b < offsetOf t k)).head? =
                    some (offsetOf t k)
                  then some (offsetOf t k) else lb).getD (offsetOf t k)) ≤ offsetOf t i
             then offsetOf t k
             else ((if (bks.dropWhile (fun b => b < offsetOf t k)).head? =
                      some (offsetOf t k)
                    then some (offsetOf t k) else lb).getD (offsetOf t k))) =
              offsetOf t j1 := by
          cases hlbv : (if (bks.dropWhile (fun b => b < offsetOf t k)).head? =
              some (offsetOf t k) then some (offsetOf t k) else lb) with
          | none =>
              refine ⟨k, le_refl k, by omega, hov.2, ?_⟩
              simp only [Option.getD_none]
              by_cases hle : offsetOf t k ≤ offsetOf t i
              · rw [if_pos hle]
              · rw [if_neg hle]
          | some p =>
              obtain ⟨j0, hj0k, hj0⟩ := hlb2 p hlbv
              simp only [Option.getD_some]
              by_cases hle : p ≤ offsetOf t i
              · exact ⟨k, le_refl k, by omega, hov.2, by rw [if_pos hle]⟩
              · refine ⟨j0, hj0k, ?_, by omega, by rw [if_neg hle, hj0]⟩
                subst hj0
                by_contra hz
                have hz0 : j0 = 0 := by omega
                rw [hz0, offsetOf_zero] at hle
                omega
        obtain ⟨j1, hj1k, hj1pos, hj1start, hbp1eq⟩ := hbp1
        rw [hbp1eq]
        obtain ⟨j', heq, hstart', hj'le, hj'len⟩ :=
          adjust_break_boundary_range t (offsetOf t i) (by omega) hj1pos hj1start
        rw [heq]
        have hij' : i < j' := lt_of_offsetOf_lt hj'len hstart'
        rw [byteSlice_offsetOf t (le_of_lt hij')]
        have hjoin2 : (segs ++ [(t.drop i).take (j' - i)]).join = t.take j' := by
          have htk : t.take j' = t.take i ++ (t.drop i).take (j' - i) := by
            rw [← List.take_add]
            congr 1
            omega
          simp [hjoin, htk]
        by_cases hsl : trimEnd ((t.drop i).take (j' - i)) = []
        · rw [if_neg (show ¬(trimEnd ((t.drop i).take (j' - i)) ≠ []) from by
            simp [hsl])]
          have hout2 : out.map Line.text =
              ((segs ++ [(t.drop i).take (j' - i)]).map trimEnd).filter
                (fun s => ¬s = []) := by
            rw [List.map_append, List.filter_append]
            rw [show List.filter (fun s => decide ¬s = [])
                (List.map trimEnd [(t.drop i).take (j' - i)]) = [] from by simp [hsl]]
            rw [List.append_nil]
            exact hout
          exact wrapGo_covers meas t width cs' (k + 1) hdrop' _ j' none _ _ out
            (segs ++ [(t.drop i).take (j' - i)]) (by omega) (by omega)
            (by intro p hp; exact absurd hp (by simp)) hjoin2 hout2
        · rw [if_pos (show trimEnd ((t.drop i).take (j' - i)) ≠ [] from hsl)]
          have hout2 : ∀ w : ℚ,
              (out ++ [(⟨trimEnd ((t.drop i).take (j' - i)), w⟩ : Line)]).map Line.text =
              ((segs ++ [(t.drop i).take (j' - i)]).map trimEnd).filter
                (fun s => ¬s = []) := by
            intro w
            rw [List.map_append, List.map_append, List.filter_append]
            rw [show List.filter (fun s => decide ¬s = [])
                (List.map trimEnd [(t.drop i).take (j' - i)]) =
                [trimEnd ((t.drop i).take (j' - i))] from by simp [hsl]]
            rw [hout]
            rfl
          exact wrapGo_covers meas t width cs' (k + 1) hdrop' _ j' none _ _ _
            (segs ++ [(t.drop i).take (j' - i)]) (by omega) (by omega)
            (by intro p hp; exact absurd hp (by simp)) hjoin2 (hout2 _)
      · rw [if_neg hov]
        exact wrapGo_covers meas t width cs' (k + 1) hdrop' _ i _ _ _ out segs
          (by omega) (by omega)
          (by intro p hp
              obtain ⟨j, hj, he⟩ := hlb2 p hp
              exact ⟨j, by omega, he⟩) hjoin hout

end WrapLemmas

theorem join_take_isCharBoundary {t : LC} {segs : List LC} (h : segs.join = t)
    (n : Nat) : isCharBoundary t (byteLen ((segs.take n).join)) := by
  have hsplit : (segs.take n).join ++ (segs.drop n).join = t := by
    rw [← h, ← List.join_append, List.take_append_drop]
  refine ⟨(segs.take n).join.length, ?_, ?_⟩
  · rw [← hsplit, List.length_append]
    omega
  · rw [offsetOf, ← hsplit, List.take_left]

/-- Claim C5: for every input text, available width, measurer and break
positions, the wrap loop emits at least one (possibly empty) line; the lines
are the end-trimmed segments of a character-aligned segmentation of the text
(so every break offset used is a UTF-8 character boundary and no multi-byte
code point is split), and concatenating the raw segments reconstructs the
original string — the emitted texts differ from it only by the whitespace
trimmed from the end of each segment (all-whitespace segments trim to nothing
and are skipped). -/
theorem C5_text_wrap_reconstruction (meas : LC → ℚ) (bks : List Nat) (text : LC)
    (width : ℚ) :
    wrap_text meas bks text width ≠ [] ∧
    ∃ segs : List LC, segs.join = text ∧
      (∀ n : Nat, isCharBoundary text (byteLen ((segs.take n).join))) ∧
      ((wrap_text meas bks text width).map Line.text =
        if ((segs.map trimEnd).filter (fun s => ¬s = [])) = [] then [[]]
        else (segs.map trimEnd).filter (fun s => ¬s = [])) := by
  by_cases htext : text = []
  · subst htext
    refine ⟨by simp [wrap_text], [[]], by simp, ?_, ?_⟩
    · intro n
      exact join_take_isCharBoundary (by simp) n
    · simp [wrap_text, trimEnd]
  · have hmain := wrapGo_covers meas text width text 0 (by simp) bks 0 none 0 0 [] []
      (le_refl 0) (by omega) (by intro p hp; exact absurd hp (by simp)) (by simp)
      (by simp)
    obtain ⟨segs, hjoin, hmap⟩ := hmain
    have hw : wrap_text meas bks text width =
        wrapGo meas text width (charIndicesFrom (offsetOf text 0) text) bks
          (offsetOf text 0) none 0 0 [] := by
      rw [wrap_text, if_neg htext]
      rfl
    rw [← hw] at hmap
    refine ⟨?_, segs, hjoin, fun n => join_take_isCharBoundary hjoin n, hmap⟩
    intro hnil
    rw [hnil] at hmap
    by_cases hc : ((segs.map trimEnd).filter (fun s => ¬s = [])) = []
    · rw [if_pos hc] at hmap
      exact absurd hmap.symm (by simp)
    · rw [if_neg hc] at hmap
      exact hc hmap.symm

/-- Claim C6 counterexample: with the Unicode break opportunities of the text
`"aa。。。aa"` (a break is legal only after the closing-punctuation run, at
byte 11, plus the mandatory end-of-text break at 13), the heuristic measurer
at `font_size = 10` and available width 20, the wrap loop emits the line
`"。aa"`, which starts with the forbidden closing-punctuation character `。`:
the one-character forward shift of `adjust_break` cannot clear a run of
consecutive forbidden characters. -/
theorem C6_counterexample :
    ∃ l ∈ wrap_text (fun s => SimpleMeasurer.measure s ⟨10, 1⟩) [11, 13]
        ['a', 'a', '。', '。', '。', 'a', 'a'] 20,
      ∃ ch, l.text.head? = some ch ∧ is_forbidden_line_start ch = true := by
  have hua : 'a'.utf8Size = 1 := by decide
  have huc : '。'.utf8Size = 3 := by decide
  have hci : charIndices ['a', 'a', '。', '。', '。', 'a', 'a'] =
      [(0, 'a'), (1, 'a'), (2, '。'), (5, '。'), (8, '。'), (11, 'a'), (12, 'a')] := by
    decide
  have hne : (['a', 'a', '。', '。', '。', 'a', 'a'] : LC) ≠ [] := by decide
  have hma : SimpleMeasurer.measure ['a'] ⟨10, 1⟩ = 6 := by
    norm_num +decide [SimpleMeasurer.measure, byteLen, hua]
  have hmc : SimpleMeasurer.measure ['。'] ⟨10, 1⟩ = 7 := by
    norm_num +decide [SimpleMeasurer.measure, byteLen, is_cjk, huc]
  have hadj : adjust_break ['a', 'a', '。', '。', '。', 'a', 'a'] 0 5 = 8 := by decide
  have hs1 : trimEnd (byteSlice ['a', 'a', '。', '。', '。', 'a', 'a'] 0 8) =
      ['a', 'a', '。', '。'] := by decide
  have hs2 : trimEnd (byteDrop ['a', 'a', '。', '。', '。', 'a', 'a'] 8) =
      ['。', 'a', 'a'] := by decide
  have hr2 : byteDrop ['a', 'a', '。', '。', '。', 'a', 'a'] 8 = ['。', 'a', 'a'] := by
    decide
  have hblen : byteLen ['a', 'a', '。', '。', '。', 'a', 'a'] = 13 := by decide
  have hmap : (wrap_text (fun s => SimpleMeasurer.measure s ⟨10, 1⟩) [11, 13]
      ['a', 'a', '。', '。', '。', 'a', 'a'] 20).map Line.text =
      [['a', 'a', '。', '。'], ['。', 'a', 'a']] := by
    rw [wrap_text, if_neg hne, hci]
    rw [wrapGo]; norm_num +decide [hma, hmc]
    rw [wrapGo]; norm_num +decide [hma, hmc]
    rw [wrapGo]; norm_num +decide [hma, hmc]
    rw [wrapGo]; norm_num +decide [hma, hmc, hadj, hs1]
    rw [wrapGo]; norm_num +decide [hma, hmc]
    rw [wrapGo]; norm_num +decide [hma, hmc]
    rw [wrapGo]; norm_num +decide [hma, hmc, hs2, hr2, hblen]
  have hmem : (['。', 'a', 'a'] : LC) ∈
      (wrap_text (fun s => SimpleMeasurer.measure s ⟨10, 1⟩) [11, 13]
        ['a', 'a', '。', '。', '。', 'a', 'a'] 20).map Line.text := by
    rw [hmap]
    simp
  obtain ⟨l, hl, hlt⟩ := List.mem_map.mp hmem
  refine ⟨l, hl, '。', ?_, by decide⟩
  rw [hlt]
  rfl

/-- Claim C6 (amended): the break adjustment is a single-character shift, so
the no-forbidden-boundary guarantee is local.  At any character-boundary
candidate strictly after the segment start, provided a forbidden line-end
character immediately before the candidate lies strictly after the segment
start (the backward shift is not blocked), and the text contains no two
adjacent forbidden line-end characters nor two adjacent forbidden line-start
characters, the adjusted break is preceded by no opening bracket/quote and
followed by no closing/terminal punctuation.  (With punctuation runs the
guarantee fails, see the counterexample.) -/
theorem C6_amended_no_forbidden_boundary (t : LC) (start : Nat) {i : Nat}
    (hi : i ≤ t.length) (h0 : 0 < i) (hstart : start < offsetOf t i)
    (hmargin : is_forbidden_line_end (charAt t (i - 1)) = true →
      start < offsetOf t (i - 1))
    (hE : NoEndRuns t) (hS : NoStartRuns t) :
    ∃ j, adjust_break t start (offsetOf t i) = offsetOf t j ∧ 0 < j ∧
      j ≤ t.length ∧
      is_forbidden_line_end (charAt t (j - 1)) = false ∧
      is_forbidden_line_start (charAt t j) = false :=
  adjust_break_no_forbidden t start hi h0 hstart hmargin hE hS

theorem C6_amended_witness :
    (1 ≤ List.length ['a', 'b'] ∧ (0 : Nat) < 1 ∧
      (0 : Nat) < offsetOf ['a', 'b'] 1 ∧
      (is_forbidden_line_end (charAt ['a', 'b'] 0) = true →
        (0 : Nat) < offsetOf ['a', 'b'] 0) ∧
      NoEndRuns ['a', 'b'] ∧ NoStartRuns ['a', 'b']) ∧
    (∃ j, adjust_break ['a', 'b'] 0 (offsetOf ['a', 'b'] 1) = offsetOf ['a', 'b'] j ∧
      0 < j ∧ j ≤ List.length ['a', 'b'] ∧
      is_forbidden_line_end (charAt ['a', 'b'] (j - 1)) = false ∧
      is_forbidden_line_start (charAt ['a', 'b'] j) = false) :=
  ⟨⟨by decide, by decide, by decide, by decide, by decide, by decide⟩,
    C6_amended_no_forbidden_boundary ['a', 'b'] 0 (by decide) (by decide) (by decide)
      (by decide) (by decide) (by decide)⟩

/-- Claim C8 counterexample: `adjust_break` is not idempotent on the text
`"a。。b"` — the first application moves the candidate break from byte 1 past
one `。` to byte 4, a second application moves it past the next `。` to byte
7 — and a candidate strictly before the segment start is returned unchanged,
i.e. strictly before the segment start. -/
theorem C8_counterexample :
    adjust_break ['a', '。', '。', 'b'] 0
        (adjust_break ['a', '。', '。', 'b'] 0 1) ≠
      adjust_break ['a', '。', '。', 'b'] 0 1 ∧
    adjust_break ['a', 'b'] 1 0 < 1 := by
  decide

/-- Claim C8 (amended): for a candidate at or after the segment start the
result of `adjust_break` never lies strictly before the segment start; and on
texts with no two adjacent forbidden line-end characters and no two adjacent
forbidden line-start characters, `adjust_break` is idempotent at
character-boundary candidates (on punctuation runs a second application can
shift further, and a candidate already before the segment start is returned
as is — see the counterexample). -/
theorem C8_amended_adjust_idempotent :
    (∀ (t : LC) (start p : Nat), start ≤ p → start ≤ adjust_break t start p) ∧
    (∀ (t : LC) (start i : Nat), i ≤ t.length → 0 < i → start < offsetOf t i →
      NoEndRuns t → NoStartRuns t →
      adjust_break t start (adjust_break t start (offsetOf t i)) =
        adjust_break t start (offsetOf t i)) :=
  ⟨adjust_break_ge,
   fun t start i hi h0 hs hE hS => adjust_break_idem t start hi h0 hs hE hS⟩

theorem C8_amended_witness :
    ((0 : Nat) ≤ 1 ∧ 0 ≤ adjust_break ['a', 'b'] 0 1) ∧
    (1 ≤ List.length ['a', '。', 'b'] ∧ (0 : Nat) < 1 ∧
      (0 : Nat) < offsetOf ['a', '。', 'b'] 1 ∧ NoEndRuns ['a', '。', 'b'] ∧
      NoStartRuns ['a', '。', 'b'] ∧
      adjust_break ['a', '。', 'b'] 0
          (adjust_break ['a', '。', 'b'] 0 (offsetOf ['a', '。', 'b'] 1)) =
        adjust_break ['a', '。', 'b'] 0 (offsetOf ['a', '。', 'b'] 1)) :=
  ⟨⟨by decide, C8_amended_adjust_idempotent.1 ['a', 'b'] 0 1 (by decide)⟩,
   ⟨by decide, by decide, by decide, by decide, by decide,
    C8_amended_adjust_idempotent.2 ['a', '。', 'b'] 0 1 (by decide) (by decide)
      (by decide) (by decide) (by decide)⟩⟩

section EasyClaims

theorem foldl_mono_of_step_mono (g : ℚ → Char → ℚ) (hg : ∀ w c, w ≤ g w c) :
    ∀ (l : LC) (init : ℚ), init ≤ l.foldl g init := by
  intro l
  induction l with
  | nil => intro init; simp
  | cons c cs ih =>
      intro init
      calc init ≤ g init c := hg init c
        _ ≤ (c :: cs).foldl g init := by simpa using ih (g init c)

/-- Claim C9 counterexample: at a (degenerate) negative font size the
heuristic measurer returns a strictly negative width — `width ≥ 0` does not
hold for every `FontMetrics`. -/
theorem C9_counterexample : SimpleMeasurer.measure ['a'] ⟨-1, 1⟩ < 0 := by
  norm_num +decide [SimpleMeasurer.measure, byteLen]

/-- Claim C9 (amended): both measurers are total functions (they are defined
for every text and metrics and never fail), and whenever the configured font
size is nonnegative they return a width ≥ 0 — the heuristic by summing
nonnegative per-class advances, the glyph-backed one by clamping every glyph
advance at zero (negative font sizes yield negative widths, see the
counterexample). -/
theorem C9_amended_measure_nonneg (text : LC) (metrics : FontMetrics)
    (advance : Char → Nat → ℚ) (h : 0 ≤ metrics.font_size) :
    0 ≤ SimpleMeasurer.measure text metrics ∧
    0 ≤ FontdueMeasurer.measure advance text metrics := by
  constructor
  · rw [SimpleMeasurer.measure]
    by_cases h1 : text.all isAsciiChar = true ∧ byteLen text < 128
    · rw [if_pos h1]
      positivity
    · rw [if_neg h1]
      by_cases h2 : text.all isAsciiChar = true
      · rw [if_pos h2, measure_ascii_fast]
        positivity
      · rw [if_neg h2]
        refine foldl_mono_of_step_mono _ ?_ text 0
        intro w c
        by_cases hc : is_cjk c = true
        · rw [if_pos hc]; linarith
        · rw [if_neg hc]
          by_cases ha : isAsciiChar c = true
          · rw [if_pos ha]; nlinarith
          · rw [if_neg ha]; nlinarith
  · rw [FontdueMeasurer.measure]
    by_cases h1 : text.all isAsciiChar = true ∧ byteLen text < 128
    · rw [if_pos h1]
      positivity
    · rw [if_neg h1]
      refine foldl_mono_of_step_mono _ ?_ text 0
      intro w c
      have : (0 : ℚ) ≤ max (advance c (quantize_size metrics.font_size)) 0 :=
        le_max_right _ _
      linarith

theorem C9_amended_witness :
    (0 : ℚ) ≤ (⟨14, 1.6⟩ : FontMetrics).font_size ∧
    (0 ≤ SimpleMeasurer.measure ['a'] ⟨14, 1.6⟩ ∧
     0 ≤ FontdueMeasurer.measure (fun _ _ => 1) ['a'] ⟨14, 1.6⟩) :=
  ⟨by norm_num,
   C9_amended_measure_nonneg ['a'] ⟨14, 1.6⟩ (fun _ _ => 1) (by norm_num)⟩

/-- Claim C10 counterexample: with no blocks marked dirty the dirty fraction
is 0, which is at or below the 0.05 threshold, yet `should_render` reports
`true` for a block id that was never marked — `should_render` is not "true
exactly for the marked ids" below the threshold. -/
theorem C10_counterexample :
    RenderCache.new.dirtyShare 10 ≤ RenderCache.new.dirty_threshold ∧
    RenderCache.new.should_render 0 10 = true ∧
    RenderCache.new.is_dirty 0 = false := by
  refine ⟨?_, ?_, by decide⟩
  · norm_num [RenderCache.dirtyShare, RenderCache.new]
  · norm_num [RenderCache.should_render, RenderCache.dirtyShare, RenderCache.new]

/-- Claim C10 (amended): `should_render` reports render-everything when the
dirty fraction is zero (no marks, or an empty document) and when it strictly
exceeds the threshold; only when the fraction is strictly between zero and
the threshold (inclusive) is `should_render id` exactly `is_dirty id`. -/
theorem C10_amended_should_render (rc : RenderCache) (id total_blocks : Nat) :
    (rc.dirtyShare total_blocks = 0 → rc.should_render id total_blocks = true) ∧
    (0 < rc.dirtyShare total_blocks ∧
        rc.dirtyShare total_blocks ≤ rc.dirty_threshold →
      rc.should_render id total_blocks = rc.is_dirty id) ∧
    (rc.dirty_threshold < rc.dirtyShare total_blocks →
      rc.should_render id total_blocks = true) := by
  refine ⟨?_, ?_, ?_⟩
  · intro h
    rw [RenderCache.should_render]
    simp [h]
  · intro h
    rw [RenderCache.should_render]
    rw [if_neg (by intro h0; rw [h0] at h; exact absurd h.1 (lt_irrefl 0)),
      if_pos h.2]
  · intro h
    rw [RenderCache.should_render]
    by_cases h0 : rc.dirtyShare total_blocks = 0
    · rw [if_pos h0]
    · rw [if_neg h0, if_neg (not_le_of_lt h)]

theorem C10_amended_witness :
    (0 < (RenderCache.new.mark_dirty 3).dirtyShare 100 ∧
      (RenderCache.new.mark_dirty 3).dirtyShare 100 ≤
        (RenderCache.new.mark_dirty 3).dirty_threshold) ∧
    (RenderCache.new.mark_dirty 3).should_render 3 100 =
      (RenderCache.new.mark_dirty 3).is_dirty 3 := by
  have h1 : (0 : ℚ) < (RenderCache.new.mark_dirty 3).dirtyShare 100 := by
    norm_num [RenderCache.dirtyShare, RenderCache.mark_dirty, RenderCache.new]
  have h2 : (RenderCache.new.mark_dirty 3).dirtyShare 100 ≤
      (RenderCache.new.mark_dirty 3).dirty_threshold := by
    norm_num [RenderCache.dirtyShare, RenderCache.mark_dirty, RenderCache.new]
  exact ⟨⟨h1, h2⟩, (C10_amended_should_render (RenderCache.new.mark_dirty 3) 3
    100).2.1 ⟨h1, h2⟩⟩

/-- Claim C2 counterexample: a Figure block's height is the asset bounding-box
height (here the 180-pixel default intrinsic height) plus the caption lines'
heights — not the sum of its lines' heights alone, contradicting the claim
for the Figure kind. -/
theorem C2_counterexample :
    (layout_block_inner (fun s m => SimpleMeasurer.measure s m) (fun _ => [])
        (Block.figure 7 ['u'] none none false) LayoutConfig.default none
        EngineState.fresh).1.height ≠
      (((layout_block_inner (fun s m => SimpleMeasurer.measure s m) (fun _ => [])
        (Block.figure 7 ['u'] none none false) LayoutConfig.default none
        EngineState.fresh).1.lines.length : ℚ)) *
        LayoutConfig.default.metrics.font_size *
        LayoutConfig.default.metrics.line_height := by
  have hsz : '图'.utf8Size = 3 ∧ '片'.utf8Size = 3 := by decide
  norm_num +decide [layout_block_inner, images_load, alistGet, EngineState.fresh,
    defaultImageAsset, wrap_text_with_pool, fill_break_buf, quantize_width,
    quantize_size, alistPut, wrapGo, charIndices, charIndicesFrom, byteLen,
    byteSlice, byteDrop, trimEnd, rustWhitespace, SimpleMeasurer.measure,
    measure_ascii_fast, is_cjk, adjust_break, prev_char, next_char,
    next_char_index, LayoutConfig.default, FontMetrics.default, hsz.1, hsz.2]

/-- Claim C2 (amended): for every block of every kind except Figure, the
produced `LayoutBlock`'s height equals the number of its lines times
`font_size × line_height` (the sum of the per-line heights); for a Figure it
equals the asset bounding-box height recorded in the block's metadata plus
that sum.  This holds for any measurer, breaker, cache and engine state. -/
theorem C2_amended_height_invariant (meas : LC → FontMetrics → ℚ)
    (breakFn : LC → List Nat) (block : Block) (config : LayoutConfig)
    (cache : Option LayoutCache) (st : EngineState) :
    ((layout_block_inner meas breakFn block config cache st).1.kind ≠
        LayoutKind.figure →
      (layout_block_inner meas breakFn block config cache st).1.height =
        ((layout_block_inner meas breakFn block config cache st).1.lines.length : ℚ) *
          config.metrics.font_size * config.metrics.line_height) ∧
    ((layout_block_inner meas breakFn block config cache st).1.kind =
        LayoutKind.figure →
      ∃ m, (layout_block_inner meas breakFn block config cache st).1.meta = some m ∧
        (layout_block_inner meas breakFn block config cache st).1.height =
          m.height +
            ((layout_block_inner meas breakFn block config cache st).1.lines.length :
              ℚ) * config.metrics.font_size * config.metrics.line_height) := by
  cases block with
  | heading i level content dirty =>
      exact ⟨fun _ => rfl, fun hcon => absurd hcon (by simp [layout_block_inner])⟩
  | paragraph i content dirty =>
      exact ⟨fun _ => rfl, fun hcon => absurd hcon (by simp [layout_block_inner])⟩
  | list i ordered items dirty =>
      exact ⟨fun _ => rfl, fun hcon => absurd hcon (by simp [layout_block_inner])⟩
  | quote i content dirty =>
      exact ⟨fun _ => rfl, fun hcon => absurd hcon (by simp [layout_block_inner])⟩
  | code i lang codeText dirty =>
      exact ⟨fun _ => rfl, fun hcon => absurd hcon (by simp [layout_block_inner])⟩
  | table i rows dirty =>
      exact ⟨fun _ => rfl, fun hcon => absurd hcon (by simp [layout_block_inner])⟩
  | figure i url caption size dirty =>
      exact ⟨fun hcon => absurd rfl hcon, fun _ => ⟨_, rfl, rfl⟩⟩

theorem C2_amended_witness :
    ((layout_block_inner (fun _ _ => 0) (fun _ => [])
        (Block.code 1 [] [] false) LayoutConfig.default none
        EngineState.fresh).1.kind ≠ LayoutKind.figure) ∧
    (layout_block_inner (fun _ _ => 0) (fun _ => [])
        (Block.code 1 [] [] false) LayoutConfig.default none
        EngineState.fresh).1.height =
      ((layout_block_inner (fun _ _ => 0) (fun _ => [])
        (Block.code 1 [] [] false) LayoutConfig.default none
        EngineState.fresh).1.lines.length : ℚ) *
        LayoutConfig.default.metrics.font_size *
        LayoutConfig.default.metrics.line_height :=
  ⟨by decide,
   (C2_amended_height_invariant (fun _ _ => 0) (fun _ => [])
      (Block.code 1 [] [] false) LayoutConfig.default none
      EngineState.fresh).1 (by decide)⟩

end EasyClaims

section PaginationLemmas

/-- The page-boundary relation of the greedy pagination: a new page begins
exactly with a block that would have overflowed the previous page. -/
def pageBreakRel (cap : ℚ) (P Q : Page) : Prop :=
  ∃ b bs, Q.blocks = b :: bs ∧ cap < P.height + b.height

theorem paginateCore_append (cap : ℚ) (xs : List LayoutBlock) :
    ∀ (ys : List LayoutBlock) (pages : List Page) (cur : Page),
      paginateCore true cap (xs ++ ys) pages cur =
        paginateCore true cap ys (paginateCore true cap xs pages cur).1
          (paginateCore true cap xs pages cur).2 := by
  induction xs with
  | nil => intro ys pages cur; rfl
  | cons a rest ih =>
      intro ys pages cur
      rw [List.cons_append, paginateCore, paginateCore]
      exact ih ys _ _

theorem paginateCore_pages_prefix (cap : ℚ) :
    ∀ (lbs : List LayoutBlock) (pages : List Page) (cur : Page),
      ∃ suf, (paginateCore true cap lbs pages cur).1 = pages ++ suf := by
  intro lbs
  induction lbs with
  | nil => intro pages cur; exact ⟨[], by simp [paginateCore]⟩
  | cons b rest ih =>
      intro pages cur
      rw [paginateCore, paginateStep]
      by_cases hc : cap < cur.height + b.height ∧ cur.blocks ≠ []
      · rw [if_pos ⟨rfl, hc.1, hc.2⟩]
        obtain ⟨suf, hsuf⟩ := ih (pages ++ [cur]) ⟨pages.length + 2, [b], b.height⟩
        exact ⟨[cur] ++ suf, by simp [hsuf]⟩
      · rw [if_neg (by intro h; exact hc ⟨h.2.1, h.2.2⟩)]
        exact ih pages _

theorem paginateCore_no_split (cap : ℚ) :
    ∀ (lbs : List LayoutBlock) (pages : List Page) (cur : Page),
      (∀ n : Nat, cur.height + ((lbs.take n).map LayoutBlock.height).sum ≤ cap) →
      paginateCore true cap lbs pages cur =
        (pages, ⟨cur.number, cur.blocks ++ lbs,
          cur.height + (lbs.map LayoutBlock.height).sum⟩) := by
  intro lbs
  induction lbs with
  | nil =>
      intro pages cur h
      cases cur
      simp [paginateCore]
  | cons b rest ih =>
      intro pages cur h
      have h1 : cur.height + b.height ≤ cap := by
        have := h 1
        simpa using this
      rw [paginateCore, paginateStep,
        if_neg (by intro hcon; exact absurd h1 (not_le_of_lt hcon.2.1))]
      rw [ih _ ⟨cur.number, cur.blocks ++ [b], cur.height + b.height⟩
        (by intro n
            have := h (n + 1)
            simp only [List.take_succ_cons, List.map_cons, List.sum_cons] at this
            simp only []
            linarith)]
      simp [add_assoc]

theorem sum_take_le_sum_of_nonneg {l : List ℚ} (h : ∀ x ∈ l, 0 ≤ x) (n : Nat) :
    (l.take n).sum ≤ l.sum := by
  conv_rhs => rw [← List.take_append_drop n l]
  rw [List.sum_append]
  have h0 : 0 ≤ (l.drop n).sum :=
    List.sum_nonneg (fun x hx => h x (List.mem_of_mem_drop hx))
  linarith

theorem paginateCore_invariants (cap : ℚ) :
    ∀ (lbs : List LayoutBlock) (pages : List Page) (cur : Page),
      (pages = [] ∨ cur.blocks ≠ []) →
      (∀ P ∈ pages, P.blocks ≠ []) →
      (∀ P ∈ pages, P.height ≤ cap ∨ P.blocks.length ≤ 1) →
      (cur.height ≤ cap ∨ cur.blocks.length ≤ 1) →
      List.Chain' (pageBreakRel cap) (pages ++ [cur]) →
      (∀ P ∈ (paginateCore true cap lbs pages cur).1 ++
          [(paginateCore true cap lbs pages cur).2],
        P.height ≤ cap ∨ P.blocks.length ≤ 1) ∧
      List.Chain' (pageBreakRel cap)
        ((paginateCore true cap lbs pages cur).1 ++
          [(paginateCore true cap lbs pages cur).2]) ∧
      (∀ P ∈ (paginateCore true cap lbs pages cur).1, P.blocks ≠ []) ∧
      ((paginateCore true cap lbs pages cur).2.blocks = [] →
        lbs = [] ∧ cur.blocks = []) := by
  intro lbs
  induction lbs with
  | nil =>
      intro pages cur h0 h1 h2 h3 h4
      refine ⟨?_, by simpa [paginateCore] using h4, by simpa [paginateCore] using h1,
        ?_⟩
      · intro P hP
        simp only [paginateCore, List.mem_append, List.mem_singleton] at hP
        rcases hP with hP | hP
        · exact h2 P hP
        · subst hP; exact h3
      · intro he
        exact ⟨rfl, by simpa [paginateCore] using he⟩
  | cons b rest ih =>
      intro pages cur h0 h1 h2 h3 h4
      rw [paginateCore, paginateStep]
      by_cases hc : cap < cur.height + b.height ∧ cur.blocks ≠ []
      · rw [if_pos ⟨rfl, hc.1, hc.2⟩]
        have hnew := ih (pages ++ [cur]) ⟨pages.length + 2, [b], b.height⟩
          (Or.inr (by simp))
          (by intro P hP
              simp only [List.mem_append, List.mem_singleton] at hP
              rcases hP with hP | hP
              · exact h1 P hP
              · subst hP; exact hc.2)
          (by intro P hP
              simp only [List.mem_append, List.mem_singleton] at hP
              rcases hP with hP | hP
              · exact h2 P hP
              · subst hP
                rcases h3 with h | h
                · exact Or.inl h
                · exact Or.inr h)
          (Or.inr (by simp))
          (by rw [List.chain'_append]
              refine ⟨h4, List.chain'_singleton _, ?_⟩
              intro x hx y hy
              rw [List.getLast?_concat] at hx
              simp only [Option.mem_def, Option.some_inj] at hx
              simp only [List.head?_cons, Option.mem_def, Option.some_inj] at hy
              subst hx
              subst hy
              exact ⟨b, [], rfl, hc.1⟩)
        dsimp only
        obtain ⟨ha, hb2, hc2, hd⟩ := hnew
        refine ⟨ha, hb2, hc2, ?_⟩
        intro he
        exact absurd (hd he).2 (by simp)
      · rw [if_neg (by intro h; exact hc ⟨h.2.1, h.2.2⟩)]
        have hnew := ih pages ⟨cur.number, cur.blocks ++ [b], cur.height + b.height⟩
          (Or.inr (by simp)) h1 h2
          (by by_cases hh : cap < cur.height + b.height
              · right
                have hbl : cur.blocks = [] := by
                  by_contra hbl
                  exact hc ⟨hh, hbl⟩
                simp [hbl]
              · left
                simpa using le_of_not_lt hh)
          (by rcases h0 with h0 | h0
              · subst h0
                simp only [List.nil_append]
                exact List.chain'_singleton _
              · rw [List.chain'_append] at h4 ⊢
                refine ⟨h4.1, List.chain'_singleton _, ?_⟩
                intro x hx y hy
                simp only [List.head?_cons, Option.mem_def, Option.some_inj] at hy
                subst hy
                obtain ⟨hb, hbs, heq, hlt⟩ := h4.2.2 x hx cur (by simp)
                exact ⟨hb, hbs ++ [b], by simp [heq], hlt⟩)
        dsimp only
        obtain ⟨ha, hb2, hc2, hd⟩ := hnew
        refine ⟨ha, hb2, hc2, ?_⟩
        intro he
        exact absurd (hd he).2 (by simp)

theorem paginateCore_keep_oversized (cap : ℚ) (big : LayoutBlock)
    (hbig : cap < big.height) :
    ∀ (post : List LayoutBlock) (pages : List Page) (cur : Page),
      (∀ x ∈ post, 0 ≤ x.height) → cur.blocks = [big] → big.height ≤ cur.height →
      ∃ P ∈ (paginateCore true cap post pages cur).1 ++
          [(paginateCore true cap post pages cur).2],
        P.blocks = [big] := by
  intro post
  cases post with
  | nil =>
      intro pages cur h hcb hh
      exact ⟨cur, by simp [paginateCore], hcb⟩
  | cons p rest =>
      intro pages cur h hcb hh
      rw [paginateCore, paginateStep]
      have hcond : cap < cur.height + p.height := by
        have hp : 0 ≤ p.height := h p (by simp)
        linarith
      rw [if_pos ⟨rfl, hcond, by rw [hcb]; simp⟩]
      dsimp only
      obtain ⟨suf, hsuf⟩ := paginateCore_pages_prefix cap rest (pages ++ [cur])
        ⟨pages.length + 2, [p], p.height⟩
      refine ⟨cur, ?_, hcb⟩
      rw [List.mem_append]
      left
      rw [hsuf]
      simp

theorem paginateCore_oversized (cap : ℚ) (big : LayoutBlock)
    (hbig : cap < big.height) (post : List LayoutBlock)
    (hpost : ∀ x ∈ post, 0 ≤ x.height) :
    ∀ (pre : List LayoutBlock) (pages : List Page) (cur : Page),
      (∀ x ∈ pre, 0 ≤ x.height) → 0 ≤ cur.height →
      (cur.blocks = [] → cur.height = 0) →
      ∃ P ∈ (paginateCore true cap (pre ++ big :: post) pages cur).1 ++
          [(paginateCore true cap (pre ++ big :: post) pages cur).2],
        P.blocks = [big] := by
  intro pre
  induction pre with
  | nil =>
      intro pages cur hpre hch hce
      rw [List.nil_append, paginateCore, paginateStep]
      by_cases hcb : cur.blocks = []
      · rw [if_neg (by intro hcon; exact hcon.2.2 hcb)]
        dsimp only
        refine paginateCore_keep_oversized cap big hbig post _ _ hpost ?_ ?_
        · simp [hcb]
        · rw [hce hcb]
          simp
      · have hcond : cap < cur.height + big.height := by linarith
        rw [if_pos ⟨rfl, hcond, hcb⟩]
        dsimp only
        exact paginateCore_keep_oversized cap big hbig post _ _ hpost rfl (le_refl _)
  | cons a pre' ih =>
      intro pages cur hpre hch hce
      rw [List.cons_append, paginateCore, paginateStep]
      by_cases hc2 : cap < cur.height + a.height ∧ cur.blocks ≠ []
      · rw [if_pos ⟨rfl, hc2.1, hc2.2⟩]
        dsimp only
        refine ih _ _ (fun x hx => hpre x (by simp [hx])) ?_ ?_
        · exact hpre a (by simp)
        · intro h
          exact absurd h (by simp)
      · rw [if_neg (fun hcon => hc2 ⟨hcon.2.1, hcon.2.2⟩)]
        dsimp only
        refine ih _ _ (fun x hx => hpre x (by simp [hx])) ?_ ?_
        · have := hpre a (by simp)
          dsimp only
          linarith
        · intro h
          exact absurd h (by simp)

/-- Claim C4: paged greedy pagination.  (a) Adjacent pages always meet at an
overflow: the first block of each later page would have pushed the previous
page past `page_height − 2·margin`.  (b) Every page either fits within the
capacity or holds a single (possibly oversized) block — a new page is started
exactly when adding the next block would strictly exceed the capacity and the
current page is nonempty.  (c) For a nonempty document every page holds at
least one block.  (d) Blocks with nonnegative heights summing exactly to the
capacity stay on one page.  (e) One more block of positive height forces
exactly one further page holding just that block.  (f) A single block taller
than the capacity occupies its own page alone — it is never split. -/
theorem C4_pagination (config : LayoutConfig) (blocksAll blocks pre post :
    List LayoutBlock) (extra big : LayoutBlock) (hp : config.paged = true) :
    (List.Chain' (pageBreakRel (config.page_height - config.margin * 2))
      (paginate_blocks blocksAll config).pages) ∧
    (∀ P ∈ (paginate_blocks blocksAll config).pages,
      P.height ≤ config.page_height - config.margin * 2 ∨ P.blocks.length ≤ 1) ∧
    (blocksAll ≠ [] → ∀ P ∈ (paginate_blocks blocksAll config).pages,
      P.blocks ≠ []) ∧
    (blocks ≠ [] → (∀ b ∈ blocks, 0 ≤ b.height) →
      (blocks.map LayoutBlock.height).sum = config.page_height - config.margin * 2 →
      (paginate_blocks blocks config).pages =
        [⟨1, blocks, config.page_height - config.margin * 2⟩]) ∧
    (blocks ≠ [] → (∀ b ∈ blocks, 0 ≤ b.height) →
      (blocks.map LayoutBlock.height).sum = config.page_height - config.margin * 2 →
      0 < extra.height →
      (paginate_blocks (blocks ++ [extra]) config).pages =
        [⟨1, blocks, config.page_height - config.margin * 2⟩,
         ⟨2, [extra], extra.height⟩]) ∧
    ((∀ b ∈ pre ++ big :: post, 0 ≤ b.height) →
      config.page_height - config.margin * 2 < big.height →
      ∃ P ∈ (paginate_blocks (pre ++ big :: post) config).pages,
        P.blocks = [big]) := by
  have hinv := paginateCore_invariants (config.page_height - config.margin * 2)
    blocksAll [] ⟨1, [], 0⟩ (Or.inl rfl) (by simp) (by simp)
    (Or.inr (by simp)) (by simp)
  refine ⟨?_, ?_, ?_, ?_, ?_, ?_⟩
  · simp only [paginate_blocks, hp]
    exact hinv.2.1
  · simp only [paginate_blocks, hp]
    exact hinv.1
  · intro hne P hP
    simp only [paginate_blocks, hp] at hP
    rw [List.mem_append] at hP
    rcases hP with hP | hP
    · exact hinv.2.2.1 P hP
    · rw [List.mem_singleton] at hP
      subst hP
      intro hcon
      exact hne (hinv.2.2.2 hcon).1
  · intro hne hnn hsum
    simp only [paginate_blocks, hp]
    rw [paginateCore_no_split _ _ _ _ (by
      intro n
      dsimp only
      have : ((blocks.take n).map LayoutBlock.height).sum ≤
          (blocks.map LayoutBlock.height).sum := by
        rw [List.map_take]
        exact sum_take_le_sum_of_nonneg
          (by intro x hx
              rw [List.mem_map] at hx
              obtain ⟨b, hb, hbx⟩ := hx
              rw [← hbx]
              exact hnn b hb) n
      rw [hsum] at this
      linarith)]
    dsimp only
    rw [hsum]
    simp
  · intro hne hnn hsum hex
    simp only [paginate_blocks, hp]
    rw [paginateCore_append]
    rw [paginateCore_no_split _ blocks [] ⟨1, [], 0⟩ (by
      intro n
      dsimp only
      have : ((blocks.take n).map LayoutBlock.height).sum ≤
          (blocks.map LayoutBlock.height).sum := by
        rw [List.map_take]
        exact sum_take_le_sum_of_nonneg
          (by intro x hx
              rw [List.mem_map] at hx
              obtain ⟨b, hb, hbx⟩ := hx
              rw [← hbx]
              exact hnn b hb) n
      rw [hsum] at this
      linarith)]
    dsimp only
    rw [show ([extra] : List LayoutBlock) = extra :: [] from rfl]
    rw [paginateCore, paginateStep]
    rw [if_pos ⟨rfl, by simp only [List.nil_append]; rw [hsum]; linarith, by
      simpa using hne⟩]
    dsimp only
    rw [paginateCore]
    simp [hsum]
  · intro hnn hbig
    simp only [paginate_blocks, hp]
    exact paginateCore_oversized _ big hbig post
      (fun x hx => hnn x (by simp [hx])) pre [] ⟨1, [], 0⟩
      (fun x hx => hnn x (by simp [hx])) (le_refl 0) (fun _ => rfl)

theorem C4_pagination_witness :
    LayoutConfig.default.paged = true ∧
    ([(⟨0, LayoutKind.paragraph, [],
        LayoutConfig.default.page_height - LayoutConfig.default.margin * 2, none⟩ :
        LayoutBlock)] ≠ [] ∧
      (∀ b ∈ [(⟨0, LayoutKind.paragraph, [],
          LayoutConfig.default.page_height - LayoutConfig.default.margin * 2,
          none⟩ : LayoutBlock)], 0 ≤ b.height) ∧
      (([(⟨0, LayoutKind.paragraph, [],
          LayoutConfig.default.page_height - LayoutConfig.default.margin * 2,
          none⟩ : LayoutBlock)].map LayoutBlock.height).sum =
        LayoutConfig.default.page_height - LayoutConfig.default.margin * 2)) ∧
    (paginate_blocks [(⟨0, LayoutKind.paragraph, [],
        LayoutConfig.default.page_height - LayoutConfig.default.margin * 2, none⟩ :
        LayoutBlock)] LayoutConfig.default).pages =
      [⟨1, [(⟨0, LayoutKind.paragraph, [],
        LayoutConfig.default.page_height - LayoutConfig.default.margin * 2, none⟩ :
        LayoutBlock)], LayoutConfig.default.page_height -
          LayoutConfig.default.margin * 2⟩] :=
  ⟨rfl,
   ⟨by simp, by
      intro b hb
      rw [List.mem_singleton] at hb
      subst hb
      norm_num [LayoutConfig.default], by simp⟩,
   (C4_pagination LayoutConfig.default [] _ [] [] (⟨0, .paragraph, [], 0, none⟩)
      (⟨0, .paragraph, [], 0, none⟩) rfl).2.2.2.1 (by simp)
      (by intro b hb
          rw [List.mem_singleton] at hb
          subst hb
          norm_num [LayoutConfig.default])
      (by simp)⟩

end PaginationLemmas

section CacheLemmas

/-- `alistGet` ignores filtered-out keys. -/
theorem alistGet_filter_ne {α β : Type} [DecidableEq α] (k k' : α) (h : ¬k = k') :
    ∀ l : List (α × β), alistGet k' (l.filter fun p => ¬p.1 = k) = alistGet k' l
  | [] => rfl
  | (a, b) :: rest => by
      have ih : alistGet k' (List.filter (fun p => !decide (p.1 = k)) rest) =
          alistGet k' rest := by
        simpa using alistGet_filter_ne k k' h rest
      by_cases hak : a = k
      · subst hak
        simp [List.filter_cons, alistGet, h, ih]
      · simp [List.filter_cons, alistGet, hak, ih]

/-- `alistGet` after `alistPut` (`HashMap::insert` then lookup). -/
theorem alistGet_alistPut {α β : Type} [DecidableEq α] (k k' : α) (v : β)
    (l : List (α × β)) :
    alistGet k' (alistPut k v l) = if k = k' then some v else alistGet k' l := by
  by_cases hkk : k = k'
  · subst hkk
    simp [alistPut, alistGet]
  · rw [alistPut, alistGet, if_neg hkk, if_neg hkk, alistGet_filter_ne k k' hkk]

/-- `wrap_text_with_pool` only threads the `LayoutCache` through for buffer
pooling: the produced lines and engine state do not depend on it. -/
theorem wrap_text_with_pool_cache_eq (meas : LC → FontMetrics → ℚ)
    (breakFn : LC → List Nat) (text : LC) (width : ℚ) (metrics : FontMetrics)
    (cache : Option LayoutCache) (st : EngineState) :
    wrap_text_with_pool meas breakFn text width metrics cache st =
      ((wrap_text_with_pool meas breakFn text width metrics none st).1, cache,
       (wrap_text_with_pool meas breakFn text width metrics none st).2.2) := by
  by_cases h : text = [] <;> simp [wrap_text_with_pool, h]

/-- **C3.** In `layout_cached`, for a block whose id is present in the cache:
if the block is effectively dirty but its content signature equals the stored
signature, the cached `LayoutBlock` is reused and the cache and engine state
are untouched; if the signatures differ, the block is recomputed via
`layout_block_with_pool` and the cache entry and signature are replaced; a
block that is not effectively dirty is served from the cache with no
signature check at all. -/
theorem C3_cached_dirty_check (meas : LC → FontMetrics → ℚ)
    (breakFn : LC → List Nat) (config : LayoutConfig) (block : Block)
    (cache : LayoutCache) (st : EngineState) (hit : LayoutBlock)
    (hhit : cache.get block.idOf = some hit) :
    (is_effectively_dirty block = true →
      cache.signature block.idOf = some (hash_block block) →
      layout_cached_step meas breakFn config block cache st = (hit, cache, st)) ∧
    (is_effectively_dirty block = true →
      cache.signature block.idOf ≠ some (hash_block block) →
      layout_cached_step meas breakFn config block cache st =
        ((layout_block_with_pool meas breakFn block config cache st).1,
         LayoutCache.insert_with_sig
           (layout_block_with_pool meas breakFn block config cache st).2.1
           block.idOf
           (layout_block_with_pool meas breakFn block config cache st).1
           (hash_block block),
         (layout_block_with_pool meas breakFn block config cache st).2.2)) ∧
    (is_effectively_dirty block = false →
      layout_cached_step meas breakFn config block cache st = (hit, cache, st)) := by
  refine ⟨fun hd hs => ?_, fun hd hs => ?_, fun hd => ?_⟩
  · simp [layout_cached_step, hd, hhit, hs]
  · simp [layout_cached_step, hd, hhit, hs]
  · simp [layout_cached_step, hd, hhit]

/-- Witness for `C3_cached_dirty_check`: a dirty one-paragraph block whose
stored signature matches is served straight from the cache. -/
theorem C3_cached_dirty_check_witness :
    (LayoutCache.mk [(5, (⟨5, .paragraph, [], 0, none⟩ : LayoutBlock))]
        [(5, hash_block (.paragraph 5 [] true))] [] [] []).get
        (Block.paragraph 5 [] true).idOf =
      some (⟨5, .paragraph, [], 0, none⟩ : LayoutBlock) ∧
    is_effectively_dirty (.paragraph 5 [] true) = true ∧
    layout_cached_step (fun _ _ => 0) (fun _ => []) LayoutConfig.default
      (.paragraph 5 [] true)
      (LayoutCache.mk [(5, (⟨5, .paragraph, [], 0, none⟩ : LayoutBlock))]
        [(5, hash_block (.paragraph 5 [] true))] [] [] [])
      EngineState.fresh =
      ((⟨5, .paragraph, [], 0, none⟩ : LayoutBlock),
       LayoutCache.mk [(5, (⟨5, .paragraph, [], 0, none⟩ : LayoutBlock))]
         [(5, hash_block (.paragraph 5 [] true))] [] [] [],
       EngineState.fresh) :=
  ⟨rfl, rfl,
   (C3_cached_dirty_check (fun _ _ => 0) (fun _ => []) LayoutConfig.default
      (.paragraph 5 [] true)
      (LayoutCache.mk [(5, (⟨5, .paragraph, [], 0, none⟩ : LayoutBlock))]
        [(5, hash_block (.paragraph 5 [] true))] [] [] [])
      EngineState.fresh
      (⟨5, .paragraph, [], 0, none⟩ : LayoutBlock) rfl).1 rfl rfl⟩

/-- The List branch loop writes `list_item_cache` keys only at the indices it
recomputes: when every index other than `k` hits the sub-cache with its own
signature, every key other than `(blockId, k)` is preserved verbatim. -/
theorem listItemsLoop_frame (meas : LC → FontMetrics → ℚ)
    (breakFn : LC → List Nat) (config : LayoutConfig) (width : ℚ)
    (blockId k : Nat) :
    ∀ (items : List ListItem) (idx0 : Nat) (lines : List Line)
      (c : LayoutCache) (st : EngineState),
      (∀ q ∈ List.enumFrom idx0 items, q.1 ≠ k →
        c.get_list_item blockId q.1 (sigInlines q.2.content) ≠ none) →
      ∃ c', (listItemsLoop meas breakFn config width blockId items idx0 lines
          (some c) st).2.1 = some c' ∧
        ∀ key : Nat × Nat, key ≠ (blockId, k) →
          alistGet key c'.list_item_cache = alistGet key c.list_item_cache
  | [], _, _, c, _, _ => ⟨c, rfl, fun _ _ => rfl⟩
  | item :: rest, idx0, lines, c, st, hw => by
      simp only [listItemsLoop]
      cases hhit : c.get_list_item blockId idx0 (sigInlines item.content) with
      | some hit =>
          exact listItemsLoop_frame meas breakFn config width blockId k rest
            (idx0 + 1) (lines ++ hit) c st
            (fun q hq => hw q (by simp [List.enumFrom, hq]))
      | none =>
          by_cases hk : idx0 = k
          · subst hk
            rw [wrap_text_with_pool_cache_eq]
            obtain ⟨c', h1, h2⟩ := listItemsLoop_frame meas breakFn config width
              blockId idx0 rest (idx0 + 1)
              (lines ++ (wrap_text_with_pool meas breakFn
                (itemLabel idx0 ++ joinInlines item.content) width
                config.metrics none st).1)
              (c.put_list_item blockId idx0 (sigInlines item.content)
                (wrap_text_with_pool meas breakFn
                  (itemLabel idx0 ++ joinInlines item.content) width
                  config.metrics none st).1)
              ((wrap_text_with_pool meas breakFn
                (itemLabel idx0 ++ joinInlines item.content) width
                config.metrics none st).2.2)
              (by
                intro q hq hqk
                have := hw q (by simp [List.enumFrom, hq]) hqk
                have hne : ¬((blockId, idx0) = (blockId, q.1)) :=
                  fun he => hqk (congrArg Prod.snd he).symm
                simp only [LayoutCache.get_list_item, LayoutCache.put_list_item,
                  alistGet_alistPut, if_neg hne] at *
                exact this)
            exact ⟨c', h1, fun key hkey => by
              rw [h2 key hkey]
              simp only [LayoutCache.put_list_item, alistGet_alistPut]
              rw [if_neg (fun he => hkey he.symm)]⟩
          · exact absurd hhit (hw (idx0, item) (by simp [List.enumFrom]) hk)

/-- **C7.** Laying out an `N`-item list with a warm sub-item cache in which
every index other than `k` hits (entry present, signature matching that
item's own content) leaves every `list_item_cache` entry other than
`(list id, k)` unchanged: no other item is recomputed or overwritten. -/
theorem C7_list_subitem_isolation (meas : LC → FontMetrics → ℚ)
    (breakFn : LC → List Nat) (config : LayoutConfig) (i k : Nat) (ord d : Bool)
    (items : List ListItem) (cache : LayoutCache) (st : EngineState)
    (hwarm : ∀ q ∈ List.enumFrom 0 items, q.1 ≠ k →
      cache.get_list_item i q.1 (sigInlines q.2.content) ≠ none) :
    ∃ c', (layout_block_inner meas breakFn (.list i ord items d) config
        (some cache) st).2.1 = some c' ∧
      ∀ key : Nat × Nat, key ≠ (i, k) →
        alistGet key c'.list_item_cache = alistGet key cache.list_item_cache := by
  obtain ⟨c', h1, h2⟩ := listItemsLoop_frame meas breakFn config
    (config.page_width - config.margin * 2) i k items 0 [] cache st hwarm
  exact ⟨c', by simpa [layout_block_inner] using h1, h2⟩

/-- Witness for `C7_list_subitem_isolation`: a two-item list in which item 0
changed and item 1 is warm in the sub-cache. -/
theorem C7_list_subitem_isolation_witness :
    (∀ q ∈ List.enumFrom 0 [(⟨0, [Inline.text ['a']]⟩ : ListItem),
        ⟨1, [Inline.text ['b']]⟩], q.1 ≠ 0 →
      (LayoutCache.mk [] [] [((3, 1), (sigInlines [Inline.text ['b']],
          [(⟨['x'], 0⟩ : Line)]))] [] []).get_list_item 3 q.1
        (sigInlines q.2.content) ≠ none) ∧
    ∃ c', (layout_block_inner (fun _ _ => 0) (fun _ => [])
        (.list 3 false [⟨0, [Inline.text ['a']]⟩, ⟨1, [Inline.text ['b']]⟩] true)
        LayoutConfig.default
        (some (LayoutCache.mk [] [] [((3, 1), (sigInlines [Inline.text ['b']],
          [(⟨['x'], 0⟩ : Line)]))] [] []))
        EngineState.fresh).2.1 = some c' ∧
      ∀ key : Nat × Nat, key ≠ (3, 0) →
        alistGet key c'.list_item_cache =
          alistGet key (LayoutCache.mk [] [] [((3, 1), (sigInlines
            [Inline.text ['b']], [(⟨['x'], 0⟩ : Line)]))] [] []).list_item_cache := by
  have hwarm : ∀ q ∈ List.enumFrom 0 [(⟨0, [Inline.text ['a']]⟩ : ListItem),
      ⟨1, [Inline.text ['b']]⟩], q.1 ≠ 0 →
      (LayoutCache.mk [] [] [((3, 1), (sigInlines [Inline.text ['b']],
          [(⟨['x'], 0⟩ : Line)]))] [] []).get_list_item 3 q.1
        (sigInlines q.2.content) ≠ none := by
    intro q hq hqk
    simp only [List.enumFrom, List.mem_cons, List.not_mem_nil, or_false] at hq
    rcases hq with hq | hq
    · subst hq
      exact absurd rfl hqk
    · subst hq
      simp [LayoutCache.get_list_item, alistGet]
  exact ⟨hwarm,
    C7_list_subitem_isolation (fun _ _ => 0) (fun _ => []) LayoutConfig.default
      3 0 false true [⟨0, [Inline.text ['a']]⟩, ⟨1, [Inline.text ['b']]⟩]
      (LayoutCache.mk [] [] [((3, 1), (sigInlines [Inline.text ['b']],
        [(⟨['x'], 0⟩ : Line)]))] [] []) EngineState.fresh hwarm⟩

/-- With no cache, `wrap_text_with_pool` returns no cache. -/
theorem wrap_text_with_pool_none_cache (meas : LC → FontMetrics → ℚ)
    (breakFn : LC → List Nat) (text : LC) (width : ℚ) (metrics : FontMetrics)
    (st : EngineState) :
    (wrap_text_with_pool meas breakFn text width metrics none st).2.1 = none := by
  by_cases h : text = [] <;> simp [wrap_text_with_pool, h]

/-- `layoutBlocks` produces one `LayoutBlock` per input block. -/
theorem layoutBlocks_length (meas : LC → FontMetrics → ℚ)
    (breakFn : LC → List Nat) (config : LayoutConfig) :
    ∀ (bs : List Block) (st : EngineState),
      (layoutBlocks meas breakFn config bs st).1.length = bs.length
  | [], _ => rfl
  | b :: rest, st => by
      simp only [layoutBlocks, List.length_cons]
      exact congrArg Nat.succ (layoutBlocks_length meas breakFn config rest _)

/-- `layout`'s interleaved lay-out-and-paginate loop equals pagination over
the pre-computed per-block results. -/
theorem layoutGo_eq (meas : LC → FontMetrics → ℚ) (breakFn : LC → List Nat)
    (config : LayoutConfig) :
    ∀ (bs : List Block) (st : EngineState) (pages : List Page) (cur : Page),
      layoutGo meas breakFn config bs st pages cur =
        (⟨(paginateCore config.paged (config.page_height - config.margin * 2)
            (layoutBlocks meas breakFn config bs st).1 pages cur).1 ++
          [(paginateCore config.paged (config.page_height - config.margin * 2)
            (layoutBlocks meas breakFn config bs st).1 pages cur).2]⟩,
         (layoutBlocks meas breakFn config bs st).2)
  | [], _, _, _ => rfl
  | b :: rest, st, pages, cur => by
      simp only [layoutGo, layoutBlocks, paginateCore]
      exact layoutGo_eq meas breakFn config rest _ _ _

/-- On a `LayoutCache` with no stored `list_item_cache` entries at indices
`≥ idx0` for `blockId`, the List branch loop computes exactly what it computes
with no cache at all, and touches only `list_item_cache` keys for `blockId`. -/
theorem listItemsLoop_fresh (meas : LC → FontMetrics → ℚ)
    (breakFn : LC → List Nat) (config : LayoutConfig) (width : ℚ)
    (blockId : Nat) :
    ∀ (items : List ListItem) (idx0 : Nat) (lines : List Line)
      (c : LayoutCache) (st : EngineState),
      (∀ idx, idx0 ≤ idx → alistGet (blockId, idx) c.list_item_cache = none) →
      ∃ c', listItemsLoop meas breakFn config width blockId items idx0 lines
          (some c) st =
        ((listItemsLoop meas breakFn config width blockId items idx0 lines
            none st).1, some c',
         (listItemsLoop meas breakFn config width blockId items idx0 lines
            none st).2.2) ∧
        c'.blocks = c.blocks ∧ c'.sigs = c.sigs ∧
        c'.quote_item_cache = c.quote_item_cache ∧
        c'.table_row_cache = c.table_row_cache ∧
        ∀ key : Nat × Nat, key.1 ≠ blockId →
          alistGet key c'.list_item_cache = alistGet key c.list_item_cache
  | [], _, _, c, _, _ => ⟨c, rfl, rfl, rfl, rfl, rfl, fun _ _ => rfl⟩
  | item :: rest, idx0, lines, c, st, hfresh => by
      have hnone : c.get_list_item blockId idx0 (sigInlines item.content) = none := by
        simp [LayoutCache.get_list_item, hfresh idx0 (le_refl idx0)]
      simp only [listItemsLoop, hnone, wrap_text_with_pool_none_cache]
      rw [wrap_text_with_pool_cache_eq meas breakFn
        (itemLabel idx0 ++ joinInlines item.content) width config.metrics
        (some c) st]
      obtain ⟨c', h1, hb, hs, hq, ht, hl⟩ := listItemsLoop_fresh meas breakFn
        config width blockId rest (idx0 + 1)
        (lines ++ (wrap_text_with_pool meas breakFn
          (itemLabel idx0 ++ joinInlines item.content) width
          config.metrics none st).1)
        (c.put_list_item blockId idx0 (sigInlines item.content)
          (wrap_text_with_pool meas breakFn
            (itemLabel idx0 ++ joinInlines item.content) width
            config.metrics none st).1)
        ((wrap_text_with_pool meas breakFn
          (itemLabel idx0 ++ joinInlines item.content) width
          config.metrics none st).2.2)
        (fun idx hidx => by
          simp only [LayoutCache.put_list_item, alistGet_alistPut]
          rw [if_neg (fun he => by
            have : idx0 = idx := congrArg Prod.snd he
            omega)]
          exact hfresh idx (by omega))
      refine ⟨c', h1, hb, hs, hq, ht, fun key hkey => ?_⟩
      rw [hl key hkey]
      simp only [LayoutCache.put_list_item, alistGet_alistPut]
      rw [if_neg (fun he => hkey (congrArg Prod.fst he).symm)]

/-- Quote-branch analogue of `listItemsLoop_fresh`. -/
theorem quoteItemsLoop_fresh (meas : LC → FontMetrics → ℚ)
    (breakFn : LC → List Nat) (config : LayoutConfig) (width : ℚ)
    (blockId : Nat) :
    ∀ (content : List Block) (idx0 : Nat) (lines : List Line)
      (c : LayoutCache) (st : EngineState),
      (∀ idx, idx0 ≤ idx → alistGet (blockId, idx) c.quote_item_cache = none) →
      ∃ c', quoteItemsLoop meas breakFn config width blockId content idx0 lines
          (some c) st =
        ((quoteItemsLoop meas breakFn config width blockId content idx0 lines
            none st).1, some c',
         (quoteItemsLoop meas breakFn config width blockId content idx0 lines
            none st).2.2) ∧
        c'.blocks = c.blocks ∧ c'.sigs = c.sigs ∧
        c'.list_item_cache = c.list_item_cache ∧
        c'.table_row_cache = c.table_row_cache ∧
        ∀ key : Nat × Nat, key.1 ≠ blockId →
          alistGet key c'.quote_item_cache = alistGet key c.quote_item_cache
  | [], _, _, c, _, _ => ⟨c, rfl, rfl, rfl, rfl, rfl, fun _ _ => rfl⟩
  | b :: rest, idx0, lines, c, st, hfresh => by
      cases b with
      | paragraph i content d =>
          have hnone : c.get_quote_item blockId idx0 (sigInlines content) = none := by
            simp [LayoutCache.get_quote_item, hfresh idx0 (le_refl idx0)]
          simp only [quoteItemsLoop, hnone, wrap_text_with_pool_none_cache]
          rw [wrap_text_with_pool_cache_eq meas breakFn (joinInlines content)
            width config.metrics (some c) st]
          obtain ⟨c', h1, hb, hs, hl, ht, hq⟩ := quoteItemsLoop_fresh meas breakFn
            config width blockId rest (idx0 + 1)
            (lines ++ (wrap_text_with_pool meas breakFn (joinInlines content)
              width config.metrics none st).1)
            (c.put_quote_item blockId idx0 (sigInlines content)
              (wrap_text_with_pool meas breakFn (joinInlines content)
                width config.metrics none st).1)
            ((wrap_text_with_pool meas breakFn (joinInlines content)
              width config.metrics none st).2.2)
            (fun idx hidx => by
              simp only [LayoutCache.put_quote_item, alistGet_alistPut]
              rw [if_neg (fun he => by
                have : idx0 = idx := congrArg Prod.snd he
                omega)]
              exact hfresh idx (by omega))
          refine ⟨c', h1, hb, hs, hl, ht, fun key hkey => ?_⟩
          rw [hq key hkey]
          simp only [LayoutCache.put_quote_item, alistGet_alistPut]
          rw [if_neg (fun he => hkey (congrArg Prod.fst he).symm)]
      | heading a1 a2 a3 a4 =>
          simp only [quoteItemsLoop]
          exact quoteItemsLoop_fresh meas breakFn config width blockId rest
            (idx0 + 1) lines c st (fun idx h => hfresh idx (by omega))
      | list a1 a2 a3 a4 =>
          simp only [quoteItemsLoop]
          exact quoteItemsLoop_fresh meas breakFn config width blockId rest
            (idx0 + 1) lines c st (fun idx h => hfresh idx (by omega))
      | quote a1 a2 a3 =>
          simp only [quoteItemsLoop]
          exact quoteItemsLoop_fresh meas breakFn config width blockId rest
            (idx0 + 1) lines c st (fun idx h => hfresh idx (by omega))
      | code a1 a2 a3 a4 =>
          simp only [quoteItemsLoop]
          exact quoteItemsLoop_fresh meas breakFn config width blockId rest
            (idx0 + 1) lines c st (fun idx h => hfresh idx (by omega))
      | table a1 a2 a3 =>
          simp only [quoteItemsLoop]
          exact quoteItemsLoop_fresh meas breakFn config width blockId rest
            (idx0 + 1) lines c st (fun idx h => hfresh idx (by omega))
      | figure a1 a2 a3 a4 a5 =>
          simp only [quoteItemsLoop]
          exact quoteItemsLoop_fresh meas breakFn config width blockId rest
            (idx0 + 1) lines c st (fun idx h => hfresh idx (by omega))

/-- Table-branch analogue of `listItemsLoop_fresh`. -/
theorem tableRowsLoop_fresh (width : ℚ) (blockId : Nat) :
    ∀ (rows : List (List Cell)) (ri : Nat) (lines : List Line) (c : LayoutCache),
      (∀ idx, ri ≤ idx → alistGet (blockId, idx) c.table_row_cache = none) →
      ∃ c', tableRowsLoop width blockId rows ri lines (some c) =
        ((tableRowsLoop width blockId rows ri lines none).1, some c') ∧
        c'.blocks = c.blocks ∧ c'.sigs = c.sigs ∧
        c'.list_item_cache = c.list_item_cache ∧
        c'.quote_item_cache = c.quote_item_cache ∧
        ∀ key : Nat × Nat, key.1 ≠ blockId →
          alistGet key c'.table_row_cache = alistGet key c.table_row_cache
  | [], _, _, c, _ => ⟨c, rfl, rfl, rfl, rfl, rfl, fun _ _ => rfl⟩
  | row :: rest, ri, lines, c, hfresh => by
      have hnone : c.get_table_row blockId ri (sigRow row) = none := by
        simp [LayoutCache.get_table_row, hfresh ri (le_refl ri)]
      simp only [tableRowsLoop, hnone]
      obtain ⟨c', h1, hb, hs, hl, hq, ht⟩ := tableRowsLoop_fresh width blockId
        rest (ri + 1) (lines ++ [⟨rowText row, width⟩])
        (c.put_table_row blockId ri (sigRow row) [⟨rowText row, width⟩])
        (fun idx hidx => by
          simp only [LayoutCache.put_table_row, alistGet_alistPut]
          rw [if_neg (fun he => by
            have : ri = idx := congrArg Prod.snd he
            omega)]
          exact hfresh idx (by omega))
      refine ⟨c', h1, hb, hs, hl, hq, fun key hkey => ?_⟩
      rw [ht key hkey]
      simp only [LayoutCache.put_table_row, alistGet_alistPut]
      rw [if_neg (fun he => hkey (congrArg Prod.fst he).symm)]

/-- On a cache with no sub-item entries for this block's id, `layout_block_inner`
computes exactly the cache-less result and engine state, and touches only
sub-cache keys of this block's id (never `blocks`/`sigs`). -/
theorem layout_block_inner_fresh (meas : LC → FontMetrics → ℚ)
    (breakFn : LC → List Nat) (b : Block) (config : LayoutConfig)
    (c : LayoutCache) (st : EngineState)
    (hlc : ∀ idx, alistGet (b.idOf, idx) c.list_item_cache = none)
    (hqc : ∀ idx, alistGet (b.idOf, idx) c.quote_item_cache = none)
    (htc : ∀ idx, alistGet (b.idOf, idx) c.table_row_cache = none) :
    ∃ c', layout_block_inner meas breakFn b config (some c) st =
      ((layout_block_inner meas breakFn b config none st).1, some c',
       (layout_block_inner meas breakFn b config none st).2.2) ∧
      c'.blocks = c.blocks ∧ c'.sigs = c.sigs ∧
      ∀ key : Nat × Nat, key.1 ≠ b.idOf →
        alistGet key c'.list_item_cache = alistGet key c.list_item_cache ∧
        alistGet key c'.quote_item_cache = alistGet key c.quote_item_cache ∧
        alistGet key c'.table_row_cache = alistGet key c.table_row_cache := by
  cases b with
  | heading i level content d =>
      refine ⟨c, ?_, rfl, rfl, fun _ _ => ⟨rfl, rfl, rfl⟩⟩
      simp only [layout_block_inner]
      rw [wrap_text_with_pool_cache_eq meas breakFn (joinInlines content)
        (config.page_width - config.margin * 2) config.metrics (some c) st]
  | paragraph i content d =>
      refine ⟨c, ?_, rfl, rfl, fun _ _ => ⟨rfl, rfl, rfl⟩⟩
      simp only [layout_block_inner]
      rw [wrap_text_with_pool_cache_eq meas breakFn (joinInlines content)
        (config.page_width - config.margin * 2) config.metrics (some c) st]
  | list i ord items d =>
      obtain ⟨c', h1, hb, hs, hq, ht, hl⟩ := listItemsLoop_fresh meas breakFn
        config (config.page_width - config.margin * 2) i items 0 [] c st
        (fun idx _ => hlc idx)
      refine ⟨c', ?_, hb, hs, fun key hkey =>
        ⟨hl key hkey, by rw [hq], by rw [ht]⟩⟩
      simp only [layout_block_inner]
      rw [h1]
  | quote i content d =>
      obtain ⟨c', h1, hb, hs, hl, ht, hq⟩ := quoteItemsLoop_fresh meas breakFn
        config (config.page_width - config.margin * 2) i content 0 [] c st
        (fun idx _ => hqc idx)
      refine ⟨c', ?_, hb, hs, fun key hkey =>
        ⟨by rw [hl], hq key hkey, by rw [ht]⟩⟩
      simp only [layout_block_inner]
      rw [h1]
  | code i lang codeText d =>
      exact ⟨c, rfl, rfl, rfl, fun _ _ => ⟨rfl, rfl, rfl⟩⟩
  | table i rows d =>
      obtain ⟨c', h1, hb, hs, hl, hq, ht⟩ := tableRowsLoop_fresh
        (config.page_width - config.margin * 2) i rows 0 [] c
        (fun idx _ => htc idx)
      refine ⟨c', ?_, hb, hs, fun key hkey =>
        ⟨by rw [hl], by rw [hq], ht key hkey⟩⟩
      simp only [layout_block_inner]
      rw [h1]
  | figure i url caption size d =>
      refine ⟨c, ?_, rfl, rfl, fun _ _ => ⟨rfl, rfl, rfl⟩⟩
      simp only [layout_block_inner]
      rw [wrap_text_with_pool_cache_eq meas breakFn (caption.getD ['图', '片'])
        (config.page_width - config.margin * 2) config.metrics (some c)
        (images_load url st).2]

/-- `insert_with_sig` on the `blocks` map. -/
theorem insert_with_sig_blocks (c : LayoutCache) (id2 : Nat) (b : LayoutBlock)
    (sig : Block) :
    (c.insert_with_sig id2 b sig).blocks = alistPut id2 b c.blocks := rfl

/-- `insert_with_sig` on the `sigs` map. -/
theorem insert_with_sig_sigs (c : LayoutCache) (id2 : Nat) (b : LayoutBlock)
    (sig : Block) :
    (c.insert_with_sig id2 b sig).sigs = alistPut id2 sig c.sigs := rfl

/-- Cold-cache run of `layout_cached`: with pairwise-distinct block ids and a
cache holding nothing under those ids, every block is recomputed exactly as
`layout` computes it, and the whole-block cache is filled with those results
and their content signatures. -/
theorem layoutCachedGo_cold (meas : LC → FontMetrics → ℚ)
    (breakFn : LC → List Nat) (config : LayoutConfig) :
    ∀ (bs : List Block) (cache : LayoutCache) (st : EngineState)
      (pages : List Page) (cur : Page),
      (bs.map Block.idOf).Nodup →
      (∀ b ∈ bs, alistGet b.idOf cache.blocks = none) →
      (∀ b ∈ bs, ∀ idx : Nat,
        alistGet (b.idOf, idx) cache.list_item_cache = none ∧
        alistGet (b.idOf, idx) cache.quote_item_cache = none ∧
        alistGet (b.idOf, idx) cache.table_row_cache = none) →
      ∃ c', layoutCachedGo meas breakFn config bs cache st pages cur =
        ((layoutGo meas breakFn config bs st pages cur).1, c',
         (layoutGo meas breakFn config bs st pages cur).2) ∧
        (∀ p ∈ bs.zip (layoutBlocks meas breakFn config bs st).1,
          alistGet p.1.idOf c'.blocks = some p.2 ∧
          alistGet p.1.idOf c'.sigs = some (hash_block p.1)) ∧
        (∀ id2 : Nat, id2 ∉ bs.map Block.idOf →
          alistGet id2 c'.blocks = alistGet id2 cache.blocks ∧
          alistGet id2 c'.sigs = alistGet id2 cache.sigs)
  | [], cache, _, _, _, _, _, _ =>
      ⟨cache, rfl, by simp [layoutBlocks], fun _ _ => ⟨rfl, rfl⟩⟩
  | b :: rest, cache, st, pages, cur, hnd, hblocks, hsub => by
      rw [List.map_cons, List.nodup_cons] at hnd
      obtain ⟨hbnotin, hnd'⟩ := hnd
      obtain ⟨c1, hstep1, hb1, hs1, hframe1⟩ := layout_block_inner_fresh meas
        breakFn b config cache st
        (fun idx => (hsub b (by simp) idx).1)
        (fun idx => (hsub b (by simp) idx).2.1)
        (fun idx => (hsub b (by simp) idx).2.2)
      have hget : cache.get b.idOf = none := hblocks b (by simp)
      have hstepeq : layout_cached_step meas breakFn config b cache st =
          ((layout_block_inner meas breakFn b config none st).1,
           c1.insert_with_sig b.idOf
             (layout_block_inner meas breakFn b config none st).1 (hash_block b),
           (layout_block_inner meas breakFn b config none st).2.2) := by
        cases hd : is_effectively_dirty b <;>
          simp [layout_cached_step, hd, hget, layout_block_with_pool, hstep1]
      obtain ⟨c', hres, hzip, hfr⟩ := layoutCachedGo_cold meas breakFn config rest
        (c1.insert_with_sig b.idOf
          (layout_block_inner meas breakFn b config none st).1 (hash_block b))
        ((layout_block_inner meas breakFn b config none st).2.2)
        (paginateStep config.paged (config.page_height - config.margin * 2)
          pages cur (layout_block_inner meas breakFn b config none st).1).1
        (paginateStep config.paged (config.page_height - config.margin * 2)
          pages cur (layout_block_inner meas breakFn b config none st).1).2
        hnd'
        (fun b2 hb2 => by
          have hne : b.idOf ≠ b2.idOf :=
            fun he => hbnotin (he ▸ List.mem_map_of_mem Block.idOf hb2)
          have h3 : alistGet b2.idOf c1.blocks = none := by
            rw [hb1]
            exact hblocks b2 (by simp [hb2])
          rw [insert_with_sig_blocks, alistGet_alistPut, if_neg hne]
          exact h3)
        (fun b2 hb2 idx => by
          have hne : b.idOf ≠ b2.idOf :=
            fun he => hbnotin (he ▸ List.mem_map_of_mem Block.idOf hb2)
          have hkey : ((b2.idOf, idx) : Nat × Nat).1 ≠ b.idOf :=
            fun he => hne he.symm
          obtain ⟨hfl, hfq, hft⟩ := hframe1 (b2.idOf, idx) hkey
          obtain ⟨g1, g2, g3⟩ := hsub b2 (by simp [hb2]) idx
          exact ⟨hfl.trans g1, hfq.trans g2, hft.trans g3⟩)
      refine ⟨c', ?_, ?_, ?_⟩
      · simp only [layoutCachedGo, layoutGo, hstepeq]
        exact hres
      · intro p hp
        simp only [layoutBlocks, List.zip_cons_cons, List.mem_cons] at hp
        rcases hp with hp | hp
        · subst hp
          obtain ⟨h4, h5⟩ := hfr b.idOf hbnotin
          constructor
          · rw [h4, insert_with_sig_blocks, alistGet_alistPut, if_pos rfl]
          · rw [h5, insert_with_sig_sigs, alistGet_alistPut, if_pos rfl]
        · exact hzip p hp
      · intro id2 hid2
        have hid2' : id2 ∉ rest.map Block.idOf := fun h => hid2 (by simp [h])
        have hne : b.idOf ≠ id2 := fun he => hid2 (by simp [he])
        obtain ⟨h4, h5⟩ := hfr id2 hid2'
        constructor
        · rw [h4, insert_with_sig_blocks, alistGet_alistPut, if_neg hne, hb1]
        · rw [h5, insert_with_sig_sigs, alistGet_alistPut, if_neg hne, hs1]

/-- Warm run of `layout_cached`: when every block hits the whole-block cache
with a matching signature, the tree is pagination over the cached blocks and
neither the cache nor the engine state changes. -/
theorem layoutCachedGo_warm (meas : LC → FontMetrics → ℚ)
    (breakFn : LC → List Nat) (config : LayoutConfig) :
    ∀ (bs : List Block) (lbs : List LayoutBlock) (cache : LayoutCache)
      (st : EngineState) (pages : List Page) (cur : Page),
      bs.length = lbs.length →
      (∀ p ∈ bs.zip lbs, alistGet p.1.idOf cache.blocks = some p.2 ∧
        alistGet p.1.idOf cache.sigs = some (hash_block p.1)) →
      layoutCachedGo meas breakFn config bs cache st pages cur =
        (⟨(paginateCore config.paged (config.page_height - config.margin * 2)
            lbs pages cur).1 ++
          [(paginateCore config.paged (config.page_height - config.margin * 2)
            lbs pages cur).2]⟩, cache, st)
  | [], [], _, _, _, _, _, _ => rfl
  | [], _ :: _, _, _, _, _, hlen, _ => by simp at hlen
  | _ :: _, [], _, _, _, _, hlen, _ => by simp at hlen
  | b :: rest, lb :: lbs, cache, st, pages, cur, hlen, hzip => by
      have hstep : layout_cached_step meas breakFn config b cache st =
          (lb, cache, st) := by
        have h1 := (hzip (b, lb) (by simp)).1
        have h2 := (hzip (b, lb) (by simp)).2
        cases hd : is_effectively_dirty b <;>
          simp [layout_cached_step, hd, LayoutCache.get, LayoutCache.signature,
            h1, h2]
      simp only [layoutCachedGo, hstep, paginateCore]
      exact layoutCachedGo_warm meas breakFn config rest lbs cache st _ _
        (by simpa using hlen)
        (fun p hp => hzip p (List.mem_cons_of_mem _ hp))

/-- **C1.** With pairwise-distinct block ids, a `layout_cached` call from a
fresh cache produces the same `LayoutTree` as a plain `layout` call on the
same document, configuration and engine state; and a second `layout_cached`
call on the so-warmed cache does too. -/
theorem C1_layout_cache_equivalence (meas : LC → FontMetrics → ℚ)
    (breakFn : LC → List Nat) (doc : Document) (config : LayoutConfig)
    (st : EngineState)
    (hnodup : (doc.blocks.map Block.idOf).Nodup) :
    (layout_cached meas breakFn doc config LayoutCache.new st).1 =
      (layout meas breakFn doc config st).1 ∧
    (layout_cached meas breakFn doc config
        (layout_cached meas breakFn doc config LayoutCache.new st).2.1
        (layout_cached meas breakFn doc config LayoutCache.new st).2.2).1 =
      (layout meas breakFn doc config st).1 := by
  obtain ⟨c', hres, hzip, hfr⟩ := layoutCachedGo_cold meas breakFn config
    doc.blocks LayoutCache.new st [] ⟨1, [], 0⟩ hnodup (fun _ _ => rfl)
    (fun _ _ _ => ⟨rfl, rfl, rfl⟩)
  have hcold : layout_cached meas breakFn doc config LayoutCache.new st =
      ((layout meas breakFn doc config st).1, c',
       (layout meas breakFn doc config st).2) := by
    rw [layout_cached, layout, hres]
  refine ⟨by rw [hcold], ?_⟩
  rw [hcold]
  have hwarm := layoutCachedGo_warm meas breakFn config doc.blocks
    (layoutBlocks meas breakFn config doc.blocks st).1 c'
    (layout meas breakFn doc config st).2 [] ⟨1, [], 0⟩
    (layoutBlocks_length meas breakFn config doc.blocks st).symm hzip
  rw [layout_cached, hwarm, layout, layoutGo_eq]

/-- Witness for `C1_layout_cache_equivalence`: a one-paragraph document. -/
theorem C1_layout_cache_equivalence_witness :
    ((Document.mk 0 0 [.paragraph 5 [] true]).blocks.map Block.idOf).Nodup ∧
    ((layout_cached (fun _ _ => 0) (fun _ => [])
        (Document.mk 0 0 [.paragraph 5 [] true]) LayoutConfig.default
        LayoutCache.new EngineState.fresh).1 =
      (layout (fun _ _ => 0) (fun _ => [])
        (Document.mk 0 0 [.paragraph 5 [] true]) LayoutConfig.default
        EngineState.fresh).1 ∧
     (layout_cached (fun _ _ => 0) (fun _ => [])
        (Document.mk 0 0 [.paragraph 5 [] true]) LayoutConfig.default
        (layout_cached (fun _ _ => 0) (fun _ => [])
          (Document.mk 0 0 [.paragraph 5 [] true]) LayoutConfig.default
          LayoutCache.new EngineState.fresh).2.1
        (layout_cached (fun _ _ => 0) (fun _ => [])
          (Document.mk 0 0 [.paragraph 5 [] true]) LayoutConfig.default
          LayoutCache.new EngineState.fresh).2.2).1 =
      (layout (fun _ _ => 0) (fun _ => [])
        (Document.mk 0 0 [.paragraph 5 [] true]) LayoutConfig.default
        EngineState.fresh).1) :=
  ⟨by decide,
   C1_layout_cache_equivalence (fun _ _ => 0) (fun _ => [])
     (Document.mk 0 0 [.paragraph 5 [] true]) LayoutConfig.default
     EngineState.fresh (by decide)⟩

end CacheLemmas

end WA
